import Mathlib

/-!
# Verification of the flacgo metadata-block engine

A shallow embedding of the flacgo FLAC metadata library (package `flacgo`,
files `flac.go` / `utils.go`) into Lean 4, together with theorems settling a
fixed list of claims about its behaviour.

Modelling conventions:
* A Go `[]byte` or `string` is a `List Nat` whose entries are byte values.
  Go's Unicode-aware `strings.ToLower` / `strings.EqualFold` are modelled on
  the ASCII range (the only range the library's block names and the claims
  exercise).
* The open file is carried as an immutable `List Nat`; Go's seek/read pairs
  become offset-indexed bounds-checked reads.
* Fallible Go functions returning `(T, error)` become `Option` / `Except`.
* Go's built-in `map[string]V` is modelled as an association list with unique
  keys (`mapSet` / `mapGet`); its unspecified iteration order is made explicit
  as an `order : List (List Nat)` parameter wherever the source ranges over a
  map (`FilterDuplicatedComments`).
* The `for _, block := range allBlocks` loop in `getBlock` is modelled with
  per-iteration loop variables (Go ≥ 1.22 semantics): the last matching block
  is returned.
-/

namespace Flacgo

/-- Byte values of a Lean string literal; used to transcribe the Go string
literals of the source (all ASCII). -/
def bytesOfString (s : String) : List Nat := s.data.map Char.toNat

/-- Model of Go `strings.ToLower` on the ASCII range. -/
def toLowerB (l : List Nat) : List Nat :=
  l.map (fun c => if 65 ≤ c ∧ c ≤ 90 then c + 32 else c)

/-- Model of Go `strings.EqualFold` on the ASCII range: equality up to case. -/
def eqFoldB (a b : List Nat) : Bool := toLowerB a == toLowerB b

/-- `VorbisComment` struct of flac.go: one `key=value` tag. -/
structure VorbisComment where
  Title : List Nat
  Value : List Nat
deriving DecidableEq

/-- `MetadataBlockHeader` struct of flac.go. -/
structure MetadataBlockHeader where
  BlockType : Nat
  IsLastBlock : Bool
  BlockLength : Nat
  Data : List Nat
deriving DecidableEq

/-- `MetadataBlock` struct of flac.go. -/
structure MetadataBlock where
  Index : Nat
  BlockType : List Nat
  IsLastBlock : Bool
  BlockHeader : MetadataBlockHeader
  BlockData : List Nat
deriving DecidableEq

/-- The `BlockMapping` map of flac.go; a missing key yields Go's zero value
`""`, i.e. `[]`. -/
def blockTypeName (t : Nat) : List Nat :=
  if t = 0 then bytesOfString "STREAMINFO"
  else if t = 1 then bytesOfString "PADDING"
  else if t = 2 then bytesOfString "APPLICATION"
  else if t = 3 then bytesOfString "SEEKTABLE"
  else if t = 4 then bytesOfString "VORBIS_COMMENT"
  else if t = 5 then bytesOfString "CUESHEET"
  else if t = 6 then bytesOfString "PICTURE"
  else if t = 127 then bytesOfString "INVALID"
  else []

def nSTREAMINFO : List Nat := bytesOfString "STREAMINFO"
def nVORBIS : List Nat := bytesOfString "VORBIS_COMMENT"
def nPICTURE : List Nat := bytesOfString "PICTURE"

/-- The value list of `BlockMapping`, used by `getBlock`'s validity check. -/
def blockMappingValues : List (List Nat) :=
  [bytesOfString "STREAMINFO", bytesOfString "PADDING", bytesOfString "APPLICATION",
   bytesOfString "SEEKTABLE", bytesOfString "VORBIS_COMMENT", bytesOfString "CUESHEET",
   bytesOfString "PICTURE", bytesOfString "INVALID"]

/-- `binary.LittleEndian.Uint32` on an exact 4-byte slice. -/
def leUint32 (l : List Nat) : Nat :=
  match l with
  | [a, b, c, d] => a + b * 256 + c * 65536 + d * 16777216
  | _ => 0

/-- `binary.BigEndian.Uint32(append([]byte{0}, bytes1to3...))`: the 24-bit
big-endian length field of a block header. -/
def beUint24 (b1 b2 b3 : Nat) : Nat := b1 * 65536 + b2 * 256 + b3

/-- `strings.Split` for a single-byte separator (the source splits on `"="`,
byte 61). -/
def splitOnByte (sep : Nat) : List Nat → List (List Nat)
  | [] => [[]]
  | c :: rest =>
    match splitOnByte sep rest with
    | [] => [[c]]
    | h :: t => if c = sep then [] :: h :: t else (c :: h) :: t

/-- The failure points of `Flac.parseVorbisBlock`, one per `fmt.Errorf` site,
plus the out-of-range slice panic Go would raise between the two bounds
checks of the comment loop. -/
inductive VorbisError where
  | tooShort
  | vendorTooShort
  | endAtCommentLength
  | endAtCommentContent
  | slicePanic
  | malformedComment
deriving DecidableEq

/-- The comment loop of `Flac.parseVorbisBlock` (`for iteration < int(numberOfComments)`). -/
def parseComments (block : List Nat) : Nat → Nat → Except VorbisError (List VorbisComment)
  | 0, _ => .ok []
  | n + 1, offset =>
    if block.length < offset + 4 then .error .endAtCommentLength
    else
      let commentLength := leUint32 ((block.drop offset).take 4)
      if block.length < offset + commentLength then .error .endAtCommentContent
      else if block.length < offset + 4 + commentLength then .error .slicePanic
      else
        let commentContent := (block.drop (offset + 4)).take commentLength
        let values := splitOnByte 61 commentContent
        if values.length ≠ 2 then .error .malformedComment
        else
          match parseComments block n (offset + commentLength + 4) with
          | .error e => .error e
          | .ok rest => .ok (⟨values.getD 0 [], values.getD 1 []⟩ :: rest)

/-- `Flac.parseVorbisBlock` of flac.go. -/
def parseVorbisBlock (vorbisBlock : List Nat) : Except VorbisError (List VorbisComment) :=
  if vorbisBlock.length < 8 then .error .tooShort
  else
    let vendorLength := leUint32 (vorbisBlock.take 4)
    if vorbisBlock.length < 4 + 4 + vendorLength then .error .vendorTooShort
    else
      let numberOfComments := leUint32 ((vorbisBlock.drop (4 + vendorLength)).take 4)
      parseComments vorbisBlock numberOfComments (4 + 4 + vendorLength)

/-- `Flac.readBytes` at an explicit offset: Go seeks to `off` and `io.ReadFull`s
`n` bytes, failing unless all `n` are available. -/
def readBytes (file : List Nat) (off n : Nat) : Option (List Nat) :=
  if off + n ≤ file.length then some ((file.drop off).take n) else none

/-- `Flac.readMetadataBlock` of flac.go: decode one 4-byte header at `offset`
and read the following payload. -/
def readMetadataBlock (file : List Nat) (offset : Nat) : Option MetadataBlock :=
  match readBytes file offset 4 with
  | some [b0, b1, b2, b3] =>
    let blockType := b0 &&& 0x7F
    let isLastBlock := (b0 &&& 0x80) >>> 7
    let blockLength := beUint24 b1 b2 b3
    match readBytes file (offset + 4) blockLength with
    | some blockContent =>
      some { Index := offset
             BlockType := blockTypeName blockType
             IsLastBlock := isLastBlock == 1
             BlockHeader := { BlockType := blockType, IsLastBlock := isLastBlock == 1,
                              BlockLength := blockLength, Data := [b0, b1, b2, b3] }
             BlockData := blockContent }
    | none => none
  | _ => none

/-- The loop body of `Flac.readAllMetadataBlocks`, with fuel; offsets strictly
increase by at least 4 per iteration, so `file.length` fuel always suffices. -/
def readAllFrom (file : List Nat) : Nat → Nat → Option (List MetadataBlock)
  | 0, _ => none
  | fuel + 1, offset =>
    match readMetadataBlock file offset with
    | none => none
    | some b =>
      if b.IsLastBlock then some [b]
      else
        match readAllFrom file fuel (offset + 4 + b.BlockData.length) with
        | none => none
        | some bs => some (b :: bs)

/-- `Flac.readAllMetadataBlocks` of flac.go: scan from absolute offset 4 until
the first block whose terminal bit is set. -/
def readAllMetadataBlocks (file : List Nat) : Option (List MetadataBlock) :=
  readAllFrom file file.length 4

/-- `containsIgnoreCase` of utils.go. -/
def containsIgnoreCase (slice : List (List Nat)) (str : List Nat) : Bool :=
  slice.any (fun item => eqFoldB item str)

/-- `GetFilteredBlocks` of utils.go: drop every block whose type name occurs in
`blockTypes` (case-insensitively). -/
def GetFilteredBlocks (blocks : List MetadataBlock) (blockTypes : List (List Nat)) :
    List MetadataBlock :=
  blocks.filter (fun b => !containsIgnoreCase blockTypes b.BlockType)

/-- `Flac.getBlock` of flac.go. Outer `none` is an error return; `some none`
is Go's `(nil, nil)` (no error, no matching block). The range loop keeps the
last match (per-iteration loop variable, Go ≥ 1.22). -/
def getBlock (file : List Nat) (blockType : List Nat) : Option (Option MetadataBlock) :=
  if blockMappingValues.any (fun v => eqFoldB v blockType) then
    match readAllMetadataBlocks file with
    | none => none
    | some allBlocks =>
      some (allBlocks.foldl
        (fun acc block => if eqFoldB block.BlockType blockType then some block else acc) none)
  else none

/-! ## Go map model and the tag merge -/

/-- Content of a Go `map[string]VorbisComment` as an association list with
unique keys: setting an existing key overwrites in place, a new key is
appended. -/
def mapSet : List (List Nat × VorbisComment) → List Nat → VorbisComment →
    List (List Nat × VorbisComment)
  | [], k, v => [(k, v)]
  | p :: rest, k, v => if p.1 = k then (k, v) :: rest else p :: mapSet rest k v

/-- Lookup in the Go map model. -/
def mapGet : List (List Nat × VorbisComment) → List Nat → Option VorbisComment
  | [], _ => none
  | p :: rest, k => if p.1 = k then some p.2 else mapGet rest k

/-- The `comments` map built by `FilterDuplicatedComments` of utils.go: old
comments keyed by lower-cased title unless removed, then new comments applied
in order, overwriting. -/
def mergeMap (previousComments newComments : List VorbisComment)
    (removedComments : List (List Nat)) : List (List Nat × VorbisComment) :=
  let m0 := previousComments.foldl
    (fun m c => if removedComments.contains (toLowerB c.Title) then m
                else mapSet m (toLowerB c.Title) c) []
  newComments.foldl (fun m c => mapSet m (toLowerB c.Title) c) m0

/-- `FilterDuplicatedComments` of utils.go. The final `for _, c := range comments`
ranges over a Go map whose iteration order is unspecified; `order` is the key
sequence one concrete run happens to produce. -/
def FilterDuplicatedComments (previousComments newComments : List VorbisComment)
    (removedComments : List (List Nat)) (order : List (List Nat)) : List VorbisComment :=
  order.filterMap (fun k => mapGet (mergeMap previousComments newComments removedComments) k)

/-- A key sequence is a possible Go map iteration order iff it enumerates each
key of the map exactly once. -/
def goMapOrder (m : List (List Nat × VorbisComment)) (order : List (List Nat)) : Prop :=
  order.Perm (m.map Prod.fst)

instance (m : List (List Nat × VorbisComment)) (order : List (List Nat)) :
    Decidable (goMapOrder m order) := by
  unfold goMapOrder; infer_instance

/-! ## Session state and operations -/

/-- The `Flac` struct of flac.go (the open `*os.File` is carried as its byte
contents; `fileName`/`fileSize` are subsumed by `file`). -/
structure Flac where
  file : List Nat
  vorbisIndex : Option Nat
  vorbisLength : Nat
  pendingComments : List VorbisComment
  parsedComments : List VorbisComment
  removedComments : List (List Nat)
  parsedCoverPicture : Option MetadataBlock
  pendingCoverPicture : List Nat
  removeCoverPicture : Bool
deriving DecidableEq

def magicfLaC : List Nat := bytesOfString "fLaC"

/-- `Open` of flac.go. The `removedComments` nil map of the no-vorbis branch
is modelled as the empty list. -/
def Open (file : List Nat) : Option Flac :=
  if file.take 4 ≠ magicfLaC then none
  else
    let vorbisBlock : Option MetadataBlock :=
      match getBlock file nVORBIS with
      | some b => b
      | none => none
    let pictureBlock : Option MetadataBlock :=
      match getBlock file nPICTURE with
      | some b => b
      | none => none
    match vorbisBlock with
    | none =>
      some { file := file, vorbisIndex := none, vorbisLength := 0,
             pendingComments := [], parsedComments := [], removedComments := [],
             parsedCoverPicture := pictureBlock, pendingCoverPicture := [],
             removeCoverPicture := false }
    | some vb =>
      match parseVorbisBlock vb.BlockData with
      | .error _ => none
      | .ok parsedComments =>
        some { file := file, vorbisIndex := some vb.Index,
               vorbisLength := vb.BlockHeader.BlockLength,
               pendingComments := parsedComments, parsedComments := parsedComments,
               removedComments := [], parsedCoverPicture := pictureBlock,
               pendingCoverPicture := [], removeCoverPicture := false }

/-- `Flac.ReadMetadata` of flac.go: first parsed comment whose lower-cased
stored title equals the query verbatim. -/
def ReadMetadata (st : Flac) (title : List Nat) : Option (List Nat) :=
  st.parsedComments.findSome?
    (fun cmt => if toLowerB cmt.Title == title then some cmt.Value else none)

/-- `Flac.SetMetadata` of flac.go: append to the pending comments. -/
def SetMetadata (st : Flac) (title value : List Nat) : Flac :=
  { st with pendingComments := st.pendingComments ++ [⟨title, value⟩] }

/-- `Flac.RemoveMetadata` of flac.go. `removedComments` (a `map[string]bool`
holding only `true` entries) is modelled as the list of its keys. -/
def RemoveMetadata (st : Flac) (title : List Nat) (ignoreIfMissing : Bool) : Option Flac :=
  if !ignoreIfMissing ∧ st.parsedComments.all (fun cmt => !eqFoldB title cmt.Title) then none
  else
    some { st with
      pendingComments := st.pendingComments.filter (fun cmt => !eqFoldB cmt.Title title),
      removedComments := st.removedComments ++ [toLowerB title] }

/-- `Flac.createPictureBlock` of flac.go, for a given image byte buffer and
MIME string (description empty, dimensions 600×600×24, 0 indexed colors). -/
def beBytes4 (v : Nat) : List Nat :=
  let v := v % 4294967296
  [v / 16777216 % 256, v / 65536 % 256, v / 256 % 256, v % 256]

def createPictureBlock (imageData : List Nat) (pictureMimeType : List Nat) : List Nat :=
  let blockData :=
    beBytes4 3 ++ beBytes4 pictureMimeType.length ++ pictureMimeType ++
    beBytes4 0 ++ beBytes4 600 ++ beBytes4 600 ++ beBytes4 24 ++ beBytes4 0 ++
    beBytes4 imageData.length ++ imageData
  let length := blockData.length % 4294967296
  [6 ||| 0x80, length / 65536 % 256, length / 256 % 256, length % 256] ++ blockData

/-- `Flac.SetCoverPictureFromBytes` of flac.go. `http.DetectContentType` is an
external collaborator (spec §1); the MIME string it would return is taken as
the `pictureMimeType` parameter. -/
def SetCoverPictureFromBytes (st : Flac) (pictureMimeType imgBytes : List Nat) : Option Flac :=
  if imgBytes.length < 512 then none
  else some { st with pendingCoverPicture := createPictureBlock imgBytes pictureMimeType }

/-- `Flac.RemoveCoverPicture` of flac.go. -/
def RemoveCoverPicture (st : Flac) (ignoreIfMissing : Bool) : Option Flac :=
  if st.parsedCoverPicture.isNone ∧ !ignoreIfMissing then none
  else some { st with removeCoverPicture := true }

/-! ## Saving -/

/-- `ToBytes` of utils.go: `PutUint32` into a 4-byte buffer in the given
endianness, keeping the last `bytesLength` bytes. -/
def ToBytes (value bytesLength : Nat) (littleEndian : Bool) : List Nat :=
  let v := value % 4294967296
  let buf := if littleEndian then [v % 256, v / 256 % 256, v / 65536 % 256, v / 16777216 % 256]
             else [v / 16777216 % 256, v / 65536 % 256, v / 256 % 256, v % 256]
  buf.drop (4 - bytesLength)

def vendorBytes : List Nat := bytesOfString "flacgo1.1"

/-- One `commentLength | "key=value"` record of the encoder loop in
`Flac.createVorbisBlock`. -/
def commentRecord (cmt : VorbisComment) : List Nat :=
  ToBytes (cmt.Title.length + 1 + cmt.Value.length) 4 true ++ cmt.Title ++ [61] ++ cmt.Value

/-- `Flac.createVorbisBlock` of flac.go: `none` is the `nil, nil` return on an
empty pending set; otherwise the full block bytes (header byte 4, 24-bit
big-endian length, body). -/
def createVorbisBlock (st : Flac) (order : List (List Nat)) : Option (List Nat) :=
  if st.pendingComments.isEmpty then none
  else
    let allMetadata :=
      FilterDuplicatedComments st.parsedComments st.pendingComments st.removedComments order
    let body :=
      ToBytes vendorBytes.length 4 true ++ vendorBytes ++
      ToBytes allMetadata.length 4 true ++
      (allMetadata.map commentRecord).flatten
    some ((0 <<< 7 ||| 4) :: ToBytes body.length 3 false ++ body)

/-- The header-byte patch of `Flac.Save`'s marking loop: set or clear bit 7 of
the first header byte (`|= 0x80` / `&^= 0x80`; equal to `&&& 0x7F` on bytes). -/
def setLastBit (hdr : List Nat) (isLast : Bool) : List Nat :=
  match hdr with
  | [] => []
  | b :: rest => (if isLast then b ||| 0x80 else b &&& 0x7F) :: rest

/-- The `Mark the last block correctly` loop of `Flac.Save`. -/
def markLast : List MetadataBlock → List MetadataBlock
  | [] => []
  | [b] => [{ b with BlockHeader := { b.BlockHeader with Data := setLastBit b.BlockHeader.Data true } }]
  | b :: rest =>
    { b with BlockHeader := { b.BlockHeader with Data := setLastBit b.BlockHeader.Data false } }
      :: markLast rest

/-- Bytes contributed to `metadataBuffer` by one block: patched header then
payload. -/
def blockBytes (b : MetadataBlock) : List Nat := b.BlockHeader.Data ++ b.BlockData

/-- The loop of `Flac.getMetadataEndOffset`, with fuel (as for the scan,
`file.length` fuel always suffices). Only the 4 header bytes are read per
block. -/
def getMetadataEndOffsetFrom (file : List Nat) : Nat → Nat → Option Nat
  | 0, _ => none
  | fuel + 1, offset =>
    match readBytes file offset 4 with
    | some [b0, b1, b2, b3] =>
      let next := offset + 4 + beUint24 b1 b2 b3
      if (b0 &&& 0x80) ≠ 0 then some next
      else getMetadataEndOffsetFrom file fuel next
    | _ => none

/-- `Flac.getMetadataEndOffset` of flac.go. -/
def getMetadataEndOffset (file : List Nat) : Option Nat :=
  getMetadataEndOffsetFrom file file.length 4

/-- The placeholder `MetadataBlock` Save wraps around a freshly created block
byte buffer (`BlockHeader.Data` the first 4 bytes, `BlockData` the rest, all
other fields Go zero values, exactly as the source's struct literals). -/
def placeholderBlock (bytes : List Nat) : MetadataBlock :=
  { Index := 0, BlockType := [], IsLastBlock := false,
    BlockHeader := { BlockType := 0, IsLastBlock := false, BlockLength := 0,
                     Data := bytes.take 4 },
    BlockData := bytes.drop 4 }

/-- The VORBIS_COMMENT step of `Flac.Save`: a fresh block when comments are
pending, the re-read original block when one existed at open, else nothing.
`none` is an error return or Go's nil-pointer dereference. -/
def vorbisPartOf (st : Flac) (order : List (List Nat)) : Option (Option MetadataBlock) :=
  if st.pendingComments.length > 0 then
    match createVorbisBlock st order with
    | some vorbisBlock => some (some (placeholderBlock vorbisBlock))
    | none => none
  else if st.vorbisIndex.isSome then
    match getBlock st.file nVORBIS with
    | some (some vb) => some (some vb)
    | _ => none
  else some none

/-- The cover-picture step of `Flac.Save`: the staged block when one is
pending (Go would panic slicing a pending buffer shorter than 4 bytes), else
the parsed block unless removal was requested. -/
def picturePartOf (st : Flac) : Option (Option MetadataBlock) :=
  if st.pendingCoverPicture.length > 0 then
    if st.pendingCoverPicture.length < 4 then none
    else some (some (placeholderBlock st.pendingCoverPicture))
  else
    match st.parsedCoverPicture with
    | some pb => if st.removeCoverPicture then some none else some (some pb)
    | none => some none

/-- The `newBlocks` assembly of `Flac.Save`: STREAMINFO first (`none` models
the error return, or Go's nil dereference when no STREAMINFO exists), then the
VORBIS_COMMENT and cover-picture parts, then every remaining block of the scan
in original order. -/
def newBlocksOf (st : Flac) (order : List (List Nat)) (blocks : List MetadataBlock) :
    Option (List MetadataBlock) :=
  match getBlock st.file nSTREAMINFO with
  | some (some streamInfo) =>
    match vorbisPartOf st order with
    | none => none
    | some vp =>
      match picturePartOf st with
      | none => none
      | some pp =>
        some ([streamInfo] ++ vp.toList ++ pp.toList ++
          GetFilteredBlocks blocks [nSTREAMINFO, nVORBIS, nPICTURE])
  | _ => none

/-- `Flac.Save` of flac.go, producing the written output bytes. Seeking past
EOF followed by `io.ReadAll` yields an empty buffer, hence the plain
`List.drop` for the raw audio. -/
def Save (st : Flac) (order : List (List Nat)) : Option (List Nat) :=
  match readAllMetadataBlocks st.file with
  | none => none
  | some blocks =>
    match readBytes st.file 0 4 with
    | none => none
    | some magicHeader =>
      match newBlocksOf st order blocks with
      | none => none
      | some newBlocks =>
        let metadataBuffer := ((markLast newBlocks).map blockBytes).flatten
        match getMetadataEndOffset st.file with
        | none => none
        | some metadataEnd =>
          some (magicHeader ++ metadataBuffer ++ st.file.drop metadataEnd)

/-! ## Concrete sample containers and sessions -/

instance {ε α : Type} [DecidableEq ε] [DecidableEq α] : DecidableEq (Except ε α) := fun a b =>
  match a, b with
  | .error e, .error f =>
    if h : e = f then isTrue (by rw [h]) else isFalse (fun hh => by cases hh; exact h rfl)
  | .ok x, .ok y =>
    if h : x = y then isTrue (by rw [h]) else isFalse (fun hh => by cases hh; exact h rfl)
  | .error _, .ok _ => isFalse (fun hh => by cases hh)
  | .ok _, .error _ => isFalse (fun hh => by cases hh)

def emptyFlac : Flac := ⟨[], none, 0, [], [], [], none, [], false⟩

/-- A small container: STREAMINFO (1-byte payload), then a terminal
VORBIS_COMMENT whose only entry is `Title=Old`, then 3 raw audio bytes. -/
def sampleFile : List Nat :=
  magicfLaC ++ [0, 0, 0, 1, 17] ++
  [132, 0, 0, 21] ++ [0, 0, 0, 0] ++ [1, 0, 0, 0] ++ [9, 0, 0, 0] ++
  bytesOfString "Title=Old" ++ [170, 187, 204]

def sampleSession : Flac := (Open sampleFile).getD emptyFlac

/-- The session on `sampleFile` after removing its only comment key. -/
def c1State : Flac :=
  ((Open sampleFile).bind (fun st => RemoveMetadata st (bytesOfString "Title") false)).getD
    emptyFlac

/-- A VORBIS_COMMENT payload whose single entry `a=b=c` contains two `=`. -/
def c3Block : List Nat := [0, 0, 0, 0] ++ [1, 0, 0, 0] ++ [5, 0, 0, 0] ++ bytesOfString "a=b=c"

/-- A VORBIS_COMMENT payload with one well-formed `Title=Old` entry. -/
def goodBlock : List Nat :=
  [0, 0, 0, 0] ++ [1, 0, 0, 0] ++ [9, 0, 0, 0] ++ bytesOfString "Title=Old"

def c2New : List VorbisComment :=
  [⟨bytesOfString "a", bytesOfString "1"⟩, ⟨bytesOfString "b", bytesOfString "2"⟩]
def c2Order1 : List (List Nat) := [bytesOfString "a", bytesOfString "b"]
def c2Order2 : List (List Nat) := [bytesOfString "b", bytesOfString "a"]

/-- A container holding two VORBIS_COMMENT blocks (`Title=Old`, then a
terminal `Title=New` at offset 34). -/
def c9File : List Nat :=
  magicfLaC ++ [0, 0, 0, 1, 17] ++
  [4, 0, 0, 21] ++ [0, 0, 0, 0] ++ [1, 0, 0, 0] ++ [9, 0, 0, 0] ++ bytesOfString "Title=Old" ++
  [132, 0, 0, 21] ++ [0, 0, 0, 0] ++ [1, 0, 0, 0] ++ [9, 0, 0, 0] ++ bytesOfString "Title=New"

def c9Blocks : List MetadataBlock := (readAllMetadataBlocks c9File).getD []

def sampleBlocks : List MetadataBlock := (readAllMetadataBlocks sampleFile).getD []

def sampleOrder : List (List Nat) := [bytesOfString "title"]

def sampleSaved : List Nat := (Save sampleSession sampleOrder).getD []

/-! ## Specification predicates for the block scan and rebuilt output -/

/-- Offsets of a scanned block sequence chain from `off`: the first block sits
at `off`, each following block at the previous offset plus `4 + payload`. -/
def chainedFrom : Nat → List MetadataBlock → Prop
  | _, [] => True
  | off, b :: rest => b.Index = off ∧ chainedFrom (off + 4 + b.BlockData.length) rest

/-- A scanned block reflects the container bytes at its offset exactly as the
header codec prescribes: 4 raw header bytes, terminal flag from bit 7 of byte
0, 7-bit type code (with its `BlockMapping` name), 24-bit big-endian length
from bytes 1–3, and a payload of exactly that many immediately following
bytes. -/
def decodesHeader (file : List Nat) (b : MetadataBlock) : Prop :=
  ∃ b0 b1 b2 b3,
    readBytes file b.Index 4 = some [b0, b1, b2, b3] ∧
    b.BlockHeader.Data = [b0, b1, b2, b3] ∧
    b.IsLastBlock = (((b0 &&& 0x80) >>> 7) == 1) ∧
    b.BlockHeader.BlockType = (b0 &&& 0x7F) ∧
    b.BlockType = blockTypeName (b0 &&& 0x7F) ∧
    b.BlockHeader.BlockLength = beUint24 b1 b2 b3 ∧
    b.BlockData = (file.drop (b.Index + 4)).take (beUint24 b1 b2 b3) ∧
    b.BlockData.length = beUint24 b1 b2 b3

/-- The 7-bit type code carried by a block's first raw header byte. -/
def typeCode (b : MetadataBlock) : Nat := b.BlockHeader.Data.getD 0 0 &&& 0x7F

/-- The terminal bit of a block's first raw header byte, decoded the way the
scanner decodes it. -/
def lastFlag (b : MetadataBlock) : Bool :=
  ((b.BlockHeader.Data.getD 0 0 &&& 0x80) >>> 7) == 1

/-- A block is emittable: its raw header is 4 bytes whose 24-bit big-endian
length field equals its payload length. -/
def emitHeaderOK (b : MetadataBlock) : Prop :=
  ∃ h0 h1 h2 h3, b.BlockHeader.Data = [h0, h1, h2, h3] ∧
    beUint24 h1 h2 h3 = b.BlockData.length

/-- The block the scanner reconstructs when it re-reads an emitted block whose
header starts at offset `off` of the rebuilt container. -/
def scannedBlock (b : MetadataBlock) (off : Nat) : MetadataBlock :=
  let h0 := b.BlockHeader.Data.getD 0 0
  let h1 := b.BlockHeader.Data.getD 1 0
  let h2 := b.BlockHeader.Data.getD 2 0
  let h3 := b.BlockHeader.Data.getD 3 0
  { Index := off, BlockType := blockTypeName (h0 &&& 0x7F),
    IsLastBlock := ((h0 &&& 0x80) >>> 7) == 1,
    BlockHeader := { BlockType := h0 &&& 0x7F, IsLastBlock := ((h0 &&& 0x80) >>> 7) == 1,
                     BlockLength := beUint24 h1 h2 h3, Data := [h0, h1, h2, h3] },
    BlockData := b.BlockData }

/-- The scanner's view of a whole emitted block sequence laid out from `off`. -/
def rescanFrom : Nat → List MetadataBlock → List MetadataBlock
  | _, [] => []
  | off, b :: rest => scannedBlock b off :: rescanFrom (off + 4 + b.BlockData.length) rest

/-- Flag discipline of an emitted block sequence: every block emittable, the
terminal bit clear on all blocks but the last, set on the last. -/
def wfFlags : List MetadataBlock → Prop
  | [] => True
  | [b] => emitHeaderOK b ∧ lastFlag b = true
  | b :: rest => emitHeaderOK b ∧ lastFlag b = false ∧ wfFlags rest

end Flacgo

namespace Flacgo

/-! ## Theorems -/

/-- **C3.** Parsing a VORBIS_COMMENT entry is claimed to fail with
`MalformedComment` exactly when the entry contains zero `=` characters, any
entry with at least one `=` decoding by splitting on the first `=`. The code
instead splits on *every* `=` and rejects any split arity other than two: the
entry `a=b=c`, which contains two `=` characters, is rejected with the
`MalformedComment` error (whose own message claims no `=` was found), while a
single-`=` entry parses. -/
theorem parseVorbisBlock_rejects_second_equals :
    parseVorbisBlock c3Block = .error .malformedComment ∧
    (bytesOfString "a=b=c").count 61 = 2 ∧
    parseVorbisBlock goodBlock = .ok [⟨bytesOfString "Title", bytesOfString "Old"⟩] := by
  decide

/-- **C1 (counterexample to the claim's conclusion).** Opening `sampleFile`
(one VORBIS_COMMENT holding the single key `Title`), removing every comment
key via `RemoveMetadata`, and saving: the merged comment set is empty as the
claim says, yet the saved output is byte-identical to the original container —
in particular it still contains exactly one VORBIS_COMMENT block carrying the
removed comment. `Save`'s fallback branch re-emits the parsed block whenever
`pendingComments` is empty, resurrecting removed comments. -/
theorem save_after_remove_all_keeps_vorbis_block :
    ((Open sampleFile).bind (fun st => RemoveMetadata st (bytesOfString "Title") false))
      = some c1State ∧
    c1State.pendingComments = [] ∧
    mergeMap c1State.parsedComments c1State.pendingComments c1State.removedComments = [] ∧
    Save c1State [] = some sampleFile ∧
    (readAllMetadataBlocks sampleFile).map
      (fun bs => bs.countP (fun b => b.BlockType == nVORBIS)) = some 1 := by
  decide

/-- **C2 (counterexample).** Two runs of the merge on identical comment inputs:
both iteration orders are genuine enumerations of the merge map's keys (each
key exactly once), yet the two resulting comment lists differ. The final loop
of `FilterDuplicatedComments` ranges over a native Go map whose iteration
order is unspecified, so the merge is not deterministic as claimed. -/
theorem filterDuplicated_order_dependent :
    goMapOrder (mergeMap [] c2New []) c2Order1 ∧
    goMapOrder (mergeMap [] c2New []) c2Order2 ∧
    FilterDuplicatedComments [] c2New [] c2Order1 ≠
      FilterDuplicatedComments [] c2New [] c2Order2 := by
  constructor
  · decide
  constructor
  · decide
  · decide

/-- **C7 (counterexample).** `sampleFile` stores the key `Title`; the query
`TITLE` matches it case-insensitively, yet `ReadMetadata` reports not-found:
the code lower-cases only the stored key, never the query. -/
theorem readMetadata_uppercase_query_fails :
    Open sampleFile = some sampleSession ∧
    sampleSession.parsedComments.any
      (fun c => eqFoldB c.Title (bytesOfString "TITLE")) = true ∧
    ReadMetadata sampleSession (bytesOfString "TITLE") = none := by
  decide

/-! ### The Go map model: lookup, keys, and fold lemmas -/

lemma mapGet_mapSet (m : List (List Nat × VorbisComment)) (k k' : List Nat) (v : VorbisComment) :
    mapGet (mapSet m k v) k' = if k' = k then some v else mapGet m k' := by
  induction m with
  | nil =>
    by_cases h : k' = k
    · simp [mapSet, mapGet, h]
    · simp [mapSet, mapGet, h, Ne.symm h]
  | cons p rest ih =>
    by_cases hpk : p.1 = k
    · by_cases hk' : k' = k
      · simp [mapSet, mapGet, hpk, hk']
      · have hpneq : p.1 ≠ k' := by rw [hpk]; exact Ne.symm hk'
        simp [mapSet, mapGet, hpk, hk', Ne.symm hk', hpneq]
    · by_cases hp' : p.1 = k'
      · have hk'k : k' ≠ k := fun h => hpk (hp'.trans h)
        simp [mapSet, mapGet, hpk, hp', hk'k]
      · simp [mapSet, mapGet, hpk, hp', ih]

lemma mem_mapSet {m : List (List Nat × VorbisComment)} {k : List Nat} {v : VorbisComment}
    {p : List Nat × VorbisComment} (hp : p ∈ mapSet m k v) : p = (k, v) ∨ p ∈ m := by
  induction m with
  | nil => simpa [mapSet] using hp
  | cons q rest ih =>
    by_cases hq : q.1 = k
    · rw [show mapSet (q :: rest) k v = (k, v) :: rest by simp [mapSet, hq]] at hp
      rcases List.mem_cons.mp hp with h | h
      · exact Or.inl h
      · exact Or.inr (List.mem_cons_of_mem _ h)
    · rw [show mapSet (q :: rest) k v = q :: mapSet rest k v by simp [mapSet, hq]] at hp
      rcases List.mem_cons.mp hp with h | h
      · exact Or.inr (by simp [h])
      · rcases ih h with h' | h'
        · exact Or.inl h'
        · exact Or.inr (List.mem_cons_of_mem _ h')

lemma mapSet_fst (m : List (List Nat × VorbisComment)) (k : List Nat) (v : VorbisComment) :
    (mapSet m k v).map Prod.fst =
      if k ∈ m.map Prod.fst then m.map Prod.fst else m.map Prod.fst ++ [k] := by
  induction m with
  | nil => simp [mapSet]
  | cons p rest ih =>
    by_cases hpk : p.1 = k
    · simp [mapSet, hpk]
    · by_cases hk : k ∈ rest.map Prod.fst <;>
        simp [mapSet, hpk, hk, ih, Ne.symm hpk]

lemma mapGet_mem {m : List (List Nat × VorbisComment)} {k : List Nat} {c : VorbisComment}
    (h : mapGet m k = some c) : (k, c) ∈ m := by
  induction m with
  | nil => cases h
  | cons p rest ih =>
    by_cases hp : p.1 = k
    · rw [mapGet, if_pos hp] at h
      have : p = (k, c) := Prod.ext hp (by injection h)
      simp [this]
    · rw [mapGet, if_neg hp] at h
      exact List.mem_cons_of_mem _ (ih h)

lemma mem_fst_of_mapGet_isSome {m : List (List Nat × VorbisComment)} {k : List Nat}
    (h : (mapGet m k).isSome) : k ∈ m.map Prod.fst := by
  rcases Option.isSome_iff_exists.mp h with ⟨c, hc⟩
  exact List.mem_map.mpr ⟨(k, c), mapGet_mem hc, rfl⟩

/-- The merge-map fold steps: each either leaves the map unchanged or performs
a `mapSet` with a key that is the lower-cased title of the inserted comment. -/
lemma foldl_mapSet_nodupKeys (step : List (List Nat × VorbisComment) → VorbisComment →
      List (List Nat × VorbisComment))
    (hstep : ∀ m c, step m c = m ∨ step m c = mapSet m (toLowerB c.Title) c)
    (l : List VorbisComment) :
    ∀ m0, (m0.map Prod.fst).Nodup → ((l.foldl step m0).map Prod.fst).Nodup := by
  induction l with
  | nil => intro m0 h; simpa using h
  | cons c rest ih =>
    intro m0 h
    rw [List.foldl_cons]
    apply ih
    rcases hstep m0 c with h' | h' <;> rw [h']
    · exact h
    · rw [mapSet_fst]
      split
      · exact h
      · next hk => simp [List.nodup_append, h, hk]

lemma foldl_mapSet_keyTitle (step : List (List Nat × VorbisComment) → VorbisComment →
      List (List Nat × VorbisComment))
    (hstep : ∀ m c, step m c = m ∨ step m c = mapSet m (toLowerB c.Title) c)
    (l : List VorbisComment) :
    ∀ m0, (∀ p ∈ m0, p.1 = toLowerB p.2.Title) →
      ∀ p ∈ l.foldl step m0, p.1 = toLowerB p.2.Title := by
  induction l with
  | nil => intro m0 h; simpa using h
  | cons c rest ih =>
    intro m0 h
    rw [List.foldl_cons]
    apply ih
    intro p hp
    rcases hstep m0 c with h' | h'
    · exact h p (h' ▸ hp)
    · rw [h'] at hp
      rcases mem_mapSet hp with h'' | h''
      · rw [h'']
      · exact h p h''

lemma removeStep_cases (removed : List (List Nat)) :
    ∀ (m : List (List Nat × VorbisComment)) (c : VorbisComment),
      (if removed.contains (toLowerB c.Title) then m else mapSet m (toLowerB c.Title) c) = m ∨
      (if removed.contains (toLowerB c.Title) then m else mapSet m (toLowerB c.Title) c) =
        mapSet m (toLowerB c.Title) c := by
  intro m c
  by_cases h : removed.contains (toLowerB c.Title)
  · exact Or.inl (if_pos h)
  · exact Or.inr (if_neg h)

lemma mergeMap_nodupKeys (prev new : List VorbisComment) (removed : List (List Nat)) :
    ((mergeMap prev new removed).map Prod.fst).Nodup := by
  unfold mergeMap
  exact foldl_mapSet_nodupKeys _ (fun m c => Or.inr rfl) new _
    (foldl_mapSet_nodupKeys _ (removeStep_cases removed) prev [] (by simp))

lemma mergeMap_keyTitle (prev new : List VorbisComment) (removed : List (List Nat)) :
    ∀ p ∈ mergeMap prev new removed, p.1 = toLowerB p.2.Title := by
  unfold mergeMap
  exact foldl_mapSet_keyTitle _ (fun m c => Or.inr rfl) new _
    (foldl_mapSet_keyTitle _ (removeStep_cases removed) prev [] (by simp))

lemma find?_append_singleton {α : Type} (p : α → Bool) (l : List α) (c : α) :
    (l ++ [c]).find? p =
      match l.find? p with
      | some x => some x
      | none => if p c then some c else none := by
  induction l with
  | nil => simp [List.find?_cons]; split <;> simp_all
  | cons a t ih =>
    by_cases h : p a <;> simp [List.find?_cons, h, ih]

/-- Last-write-wins through the pending fold: the association at key `k` after
applying all pending comments is the *last* pending comment whose lower-cased
title is `k`, falling back to the base map. -/
lemma foldl_mapSet_get (l : List VorbisComment) :
    ∀ (m0 : List (List Nat × VorbisComment)) (k : List Nat),
      mapGet (l.foldl (fun m c => mapSet m (toLowerB c.Title) c) m0) k =
        match l.reverse.find? (fun c => toLowerB c.Title == k) with
        | some c => some c
        | none => mapGet m0 k := by
  induction l with
  | nil => intro m0 k; simp
  | cons c rest ih =>
    intro m0 k
    rw [List.foldl_cons, ih, List.reverse_cons, find?_append_singleton]
    cases hf : rest.reverse.find? (fun c => toLowerB c.Title == k) with
    | some x => rfl
    | none =>
      by_cases hk : toLowerB c.Title = k
      · simp [mapGet_mapSet, hk]
      · have hbk : (toLowerB c.Title == k) = false := by simpa using hk
        have hk2 : ¬(k = toLowerB c.Title) := fun h => hk h.symm
        simp [hbk, mapGet_mapSet, hk2]

/-- Elements produced by other keys of the iteration never collide with key
`k`'s comment. -/
lemma filterMap_mapGet_filter_nil (m : List (List Nat × VorbisComment))
    (hm : ∀ p ∈ m, p.1 = toLowerB p.2.Title) (k : List Nat) :
    ∀ order : List (List Nat), k ∉ order →
      (order.filterMap (fun k' => mapGet m k')).filter
        (fun c' => toLowerB c'.Title == k) = [] := by
  intro order
  induction order with
  | nil => intro _; simp
  | cons k' rest ih =>
    intro hk
    have hk' : k' ≠ k := fun h => hk (h ▸ List.mem_cons_self _ _)
    have hkr : k ∉ rest := fun h => hk (List.mem_cons_of_mem _ h)
    cases hg : mapGet m k' with
    | none => simpa [List.filterMap_cons, hg] using ih hkr
    | some c'' =>
      have hmem := mapGet_mem hg
      have hkey := hm _ hmem
      have : (toLowerB c''.Title == k) = false := by
        simp only [beq_eq_false_iff_ne, ne_eq]
        intro h
        exact hk' (hkey.trans h)
      simpa [List.filterMap_cons, hg, List.filter_cons, this] using ih hkr

/-- Through any genuine iteration order, the comments matching key `k`
case-insensitively are exactly the single comment the merge map stores at
`k`. -/
lemma filterMap_mapGet_filter_eq (m : List (List Nat × VorbisComment))
    (hm : ∀ p ∈ m, p.1 = toLowerB p.2.Title) (k : List Nat) (c : VorbisComment)
    (hget : mapGet m k = some c) (hkc : toLowerB c.Title = k) :
    ∀ order : List (List Nat), order.Nodup → k ∈ order →
      (order.filterMap (fun k' => mapGet m k')).filter
        (fun c' => toLowerB c'.Title == k) = [c] := by
  intro order
  induction order with
  | nil => intro _ h; cases h
  | cons k' rest ih =>
    intro hnd hk
    rcases List.mem_cons.mp hk with hek | hek
    · subst hek
    -- k is the head; no further occurrence in rest
      have hkr : k ∉ rest := (List.nodup_cons.mp hnd).1
      have : (toLowerB c.Title == k) = true := by simpa using hkc
      simp [List.filterMap_cons, hget, List.filter_cons, this,
        filterMap_mapGet_filter_nil m hm k rest hkr]
    · have hnd' := (List.nodup_cons.mp hnd).2
      by_cases hkk : k' = k
      · subst hkk
        exact absurd hek (List.nodup_cons.mp hnd).1
      · cases hg : mapGet m k' with
        | none => simpa [List.filterMap_cons, hg] using ih hnd' hek
        | some c'' =>
          have hkey := hm _ (mapGet_mem hg)
          have : (toLowerB c''.Title == k) = false := by
            simp only [beq_eq_false_iff_ne, ne_eq]
            intro h
            exact hkk (hkey.trans h)
          simpa [List.filterMap_cons, hg, List.filter_cons, this] using ih hnd' hek

/-- **C2 (amended).** The merge *is* deterministic up to output order: for any
two runs on identical `(parsed, pending, removed)` inputs — i.e. any two
genuine iteration orders of the merge map — the two resulting comment lists
are permutations of each other; the key→comment association itself is uniquely
determined by the inputs. -/
theorem filterDuplicated_deterministic_up_to_perm
    (prev new : List VorbisComment) (removed : List (List Nat))
    (o1 o2 : List (List Nat))
    (h1 : goMapOrder (mergeMap prev new removed) o1)
    (h2 : goMapOrder (mergeMap prev new removed) o2) :
    (FilterDuplicatedComments prev new removed o1).Perm
      (FilterDuplicatedComments prev new removed o2) :=
  (h1.trans h2.symm).filterMap _

theorem filterDuplicated_deterministic_witness :
    (goMapOrder (mergeMap [] c2New []) c2Order1 ∧ goMapOrder (mergeMap [] c2New []) c2Order2) ∧
    (FilterDuplicatedComments [] c2New [] c2Order1).Perm
      (FilterDuplicatedComments [] c2New [] c2Order2) :=
  ⟨⟨by decide, by decide⟩,
    filterDuplicated_deterministic_up_to_perm [] c2New [] c2Order1 c2Order2
      (by decide) (by decide)⟩

/-- **C6.** Last-write-wins merging: for every session and every genuine map
iteration order, calling `SetMetadata "Artist" "A"` then `SetMetadata "Artist"
"B"` and merging yields exactly one comment whose key equals `Artist`
case-insensitively, and its value is `B` (the later pending entry overwrote
the earlier association at the same lower-cased key). -/
theorem setMetadata_last_write_wins (st : Flac) (order : List (List Nat))
    (h : goMapOrder
      (mergeMap st.parsedComments
        ((SetMetadata (SetMetadata st (bytesOfString "Artist") (bytesOfString "A"))
          (bytesOfString "Artist") (bytesOfString "B")).pendingComments)
        st.removedComments) order) :
    (FilterDuplicatedComments st.parsedComments
        ((SetMetadata (SetMetadata st (bytesOfString "Artist") (bytesOfString "A"))
          (bytesOfString "Artist") (bytesOfString "B")).pendingComments)
        st.removedComments order).filter
      (fun c => eqFoldB c.Title (bytesOfString "Artist")) =
    [⟨bytesOfString "Artist", bytesOfString "B"⟩] := by
  set pend := (SetMetadata (SetMetadata st (bytesOfString "Artist") (bytesOfString "A"))
    (bytesOfString "Artist") (bytesOfString "B")).pendingComments with hpend
  set m := mergeMap st.parsedComments pend st.removedComments with hm
  set kA := toLowerB (bytesOfString "Artist") with hkA
  have hpend' : pend = (st.pendingComments ++ [⟨bytesOfString "Artist", bytesOfString "A"⟩])
      ++ [⟨bytesOfString "Artist", bytesOfString "B"⟩] := by
    simp [hpend, SetMetadata]
  -- the association at key kA is the B entry
  have hget : mapGet m kA = some ⟨bytesOfString "Artist", bytesOfString "B"⟩ := by
    rw [hm]
    unfold mergeMap
    rw [foldl_mapSet_get, hpend']
    simp [List.reverse_append, List.find?_cons]
  have hmkeys := mergeMap_keyTitle st.parsedComments pend st.removedComments
  have hnodup : order.Nodup := h.symm.nodup (mergeMap_nodupKeys _ _ _)
  have hkin : kA ∈ order := by
    have : kA ∈ m.map Prod.fst :=
      mem_fst_of_mapGet_isSome (by rw [hget]; rfl)
    exact h.mem_iff.mpr this
  have hout := filterMap_mapGet_filter_eq m hmkeys kA
    ⟨bytesOfString "Artist", bytesOfString "B"⟩ hget (by decide) order hnodup hkin
  have hpred : (fun c : VorbisComment => eqFoldB c.Title (bytesOfString "Artist")) =
      (fun c : VorbisComment => toLowerB c.Title == kA) := by
    funext c
    simp [eqFoldB, hkA]
  rw [FilterDuplicatedComments, hpred]
  exact hout

theorem setMetadata_last_write_wins_witness :
    goMapOrder
      (mergeMap emptyFlac.parsedComments
        ((SetMetadata (SetMetadata emptyFlac (bytesOfString "Artist") (bytesOfString "A"))
          (bytesOfString "Artist") (bytesOfString "B")).pendingComments)
        emptyFlac.removedComments) [toLowerB (bytesOfString "Artist")] ∧
    (FilterDuplicatedComments emptyFlac.parsedComments
        ((SetMetadata (SetMetadata emptyFlac (bytesOfString "Artist") (bytesOfString "A"))
          (bytesOfString "Artist") (bytesOfString "B")).pendingComments)
        emptyFlac.removedComments [toLowerB (bytesOfString "Artist")]).filter
      (fun c => eqFoldB c.Title (bytesOfString "Artist")) =
    [⟨bytesOfString "Artist", bytesOfString "B"⟩] :=
  ⟨by decide, setMetadata_last_write_wins emptyFlac [toLowerB (bytesOfString "Artist")]
    (by decide)⟩

/-! ### ReadMetadata and getBlock characterizations -/

lemma findSome?_readMeta (t : List Nat) (l : List VorbisComment) :
    ((l.findSome? (fun cmt => if toLowerB cmt.Title == t then some cmt.Value else none)).isSome
      ↔ ∃ c ∈ l, toLowerB c.Title = t) ∧
    (∀ v, l.findSome? (fun cmt => if toLowerB cmt.Title == t then some cmt.Value else none)
        = some v → ∃ c ∈ l, toLowerB c.Title = t ∧ c.Value = v) := by
  induction l with
  | nil => simp
  | cons c rest ih =>
    by_cases h : toLowerB c.Title = t
    · have hred : (c :: rest).findSome?
          (fun cmt => if toLowerB cmt.Title == t then some cmt.Value else none) =
          some c.Value := by
        simp [List.findSome?_cons, h]
      constructor
      · rw [hred]
        exact ⟨fun _ => ⟨c, List.mem_cons_self _ _, h⟩, fun _ => rfl⟩
      · intro v hv
        rw [hred] at hv
        exact ⟨c, List.mem_cons_self _ _, h, Option.some.inj hv⟩
    · have hb : (toLowerB c.Title == t) = false := by simpa using h
      have hred : (c :: rest).findSome?
          (fun cmt => if toLowerB cmt.Title == t then some cmt.Value else none) =
          rest.findSome?
            (fun cmt => if toLowerB cmt.Title == t then some cmt.Value else none) := by
        simp [List.findSome?_cons, hb, h]
      constructor
      · rw [hred, ih.1]
        constructor
        · rintro ⟨c', hc', ht⟩
          exact ⟨c', List.mem_cons_of_mem _ hc', ht⟩
        · rintro ⟨c', hc', ht⟩
          rcases List.mem_cons.mp hc' with rfl | hc''
          · exact absurd ht h
          · exact ⟨c', hc'', ht⟩
      · intro v hv
        rw [hred] at hv
        obtain ⟨c', hc', ht, hval⟩ := ih.2 v hv
        exact ⟨c', List.mem_cons_of_mem _ hc', ht, hval⟩

/-- **C7 (amended).** `ReadMetadata` succeeds exactly when some stored
comment's *lower-cased* key equals the query string verbatim (so a lower-case
query matches any stored casing, but a query containing upper-case letters
never matches anything), and any returned value is the value of such a
comment. -/
theorem readMetadata_matches_lowercased_key (st : Flac) (t : List Nat) :
    ((ReadMetadata st t).isSome ↔ ∃ c ∈ st.parsedComments, toLowerB c.Title = t) ∧
    (∀ v, ReadMetadata st t = some v →
      ∃ c ∈ st.parsedComments, toLowerB c.Title = t ∧ c.Value = v) := by
  unfold ReadMetadata
  exact findSome?_readMeta t st.parsedComments

lemma foldl_lastMatch (p : MetadataBlock → Bool) (l : List MetadataBlock) :
    ∀ acc : Option MetadataBlock,
      l.foldl (fun a b => if p b then some b else a) acc =
        match (l.filter p).getLast? with
        | some b => some b
        | none => acc := by
  induction l with
  | nil => intro acc; simp
  | cons b t ih =>
    intro acc
    rw [List.foldl_cons, ih]
    by_cases hp : p b
    · rw [List.filter_cons_of_pos hp]
      cases hf : List.filter p t with
      | nil => simp [hp]
      | cons x xs =>
        rw [List.getLast?_cons_cons]
        cases hl : (x :: xs).getLast? with
        | none =>
          have hns : (x :: xs).getLast?.isSome := List.getLast?_isSome.mpr (by simp)
          rw [hl] at hns; cases hns
        | some y => rfl
    · rw [List.filter_cons_of_neg hp]
      simp [hp]

/-- **C9 (amended).** When the scan contains more than one VORBIS_COMMENT
block no error is surfaced: `getBlock` silently returns the *last* matching
block in scan order (automatic last-one-wins, not a `DuplicateVorbisBlock`
failure). -/
theorem getBlock_returns_last_vorbis (file : List Nat) (blocks : List MetadataBlock)
    (h : readAllMetadataBlocks file = some blocks) :
    getBlock file nVORBIS =
      some ((blocks.filter (fun b => eqFoldB b.BlockType nVORBIS)).getLast?) := by
  unfold getBlock
  rw [if_pos (by decide : blockMappingValues.any (fun v => eqFoldB v nVORBIS) = true), h]
  dsimp only
  rw [foldl_lastMatch]
  cases (blocks.filter (fun b => eqFoldB b.BlockType nVORBIS)).getLast? <;> rfl

theorem getBlock_returns_last_vorbis_witness :
    readAllMetadataBlocks c9File = some c9Blocks ∧
    getBlock c9File nVORBIS =
      some ((c9Blocks.filter (fun b => eqFoldB b.BlockType nVORBIS)).getLast?) :=
  ⟨by decide, getBlock_returns_last_vorbis c9File c9Blocks (by decide)⟩

/-! ### The full block scan: offsets, header decode, termination -/

lemma readMetadataBlock_spec {file : List Nat} {off : Nat} {b : MetadataBlock}
    (h : readMetadataBlock file off = some b) :
    b.Index = off ∧ decodesHeader file b := by
  unfold readMetadataBlock at h
  cases hrb : readBytes file off 4 with
  | none => rw [hrb] at h; cases h
  | some l =>
    rw [hrb] at h
    have hlen : l.length = 4 := by
      unfold readBytes at hrb
      split at hrb
      · next hbound =>
        rw [← Option.some.inj hrb, List.length_take, List.length_drop]
        omega
      · cases hrb
    obtain ⟨b0, b1, b2, b3, rfl⟩ : ∃ x0 x1 x2 x3, l = [x0, x1, x2, x3] := by
      match l, hlen with
      | [x0, x1, x2, x3], _ => exact ⟨x0, x1, x2, x3, rfl⟩
    dsimp only at h
    cases hrc : readBytes file (off + 4) (beUint24 b1 b2 b3) with
    | none => rw [hrc] at h; cases h
    | some content =>
      rw [hrc] at h
      dsimp only at h
      have hb := (Option.some.inj h).symm
      subst hb
      have hcontent : content = (file.drop (off + 4)).take (beUint24 b1 b2 b3) ∧
          content.length = beUint24 b1 b2 b3 := by
        unfold readBytes at hrc
        split at hrc
        · next hbound =>
          refine ⟨(Option.some.inj hrc).symm, ?_⟩
          rw [← Option.some.inj hrc, List.length_take, List.length_drop]
          omega
        · cases hrc
      exact ⟨rfl, b0, b1, b2, b3, hrb, rfl, rfl, rfl, rfl, rfl, hcontent.1, hcontent.2⟩

lemma readAllFrom_spec (file : List Nat) :
    ∀ (fuel off : Nat) (bs : List MetadataBlock),
      readAllFrom file fuel off = some bs →
      bs ≠ [] ∧ chainedFrom off bs ∧ (∀ b ∈ bs, decodesHeader file b) ∧
      (∀ b ∈ bs.dropLast, b.IsLastBlock = false) ∧
      bs.getLast?.map (fun b => b.IsLastBlock) = some true := by
  intro fuel
  induction fuel with
  | zero => intro off bs h; cases h
  | succ n ih =>
    intro off bs h
    rw [readAllFrom] at h
    cases hrb : readMetadataBlock file off with
    | none => rw [hrb] at h; cases h
    | some b =>
      rw [hrb] at h
      dsimp only at h
      obtain ⟨hidx, hdec⟩ := readMetadataBlock_spec hrb
      by_cases hlast : b.IsLastBlock
      · rw [if_pos hlast] at h
        have hbs : bs = [b] := (Option.some.inj h).symm
        subst hbs
        refine ⟨by simp, ⟨hidx, trivial⟩, ?_, by simp, by simp [hlast]⟩
        intro b' hb'
        rw [List.mem_singleton.mp hb']
        exact hdec
      · rw [if_neg hlast] at h
        cases hrest : readAllFrom file n (off + 4 + b.BlockData.length) with
        | none => rw [hrest] at h; cases h
        | some rest =>
          rw [hrest] at h
          have hbs : bs = b :: rest := (Option.some.inj h).symm
          subst hbs
          obtain ⟨hne, hch, hdecs, hmid, hlst⟩ := ih _ rest hrest
          obtain ⟨r, rs, rfl⟩ := List.exists_cons_of_ne_nil hne
          refine ⟨by simp, ⟨hidx, hch⟩, ?_, ?_, ?_⟩
          · intro b' hb'
            rcases List.mem_cons.mp hb' with rfl | hb''
            · exact hdec
            · exact hdecs _ hb''
          · intro b' hb'
            rw [List.dropLast_cons₂] at hb'
            rcases List.mem_cons.mp hb' with rfl | hb''
            · simpa using hlast
            · exact hmid _ hb''
          · simpa [List.getLast?_cons_cons] using hlst

/-- **C8.** The scan starts at absolute offset 4 and, on success, returns the
blocks in on-disk order: the first block's offset is 4, each subsequent offset
is the previous plus `4 + length`, each header decodes as `is_last` = bit 7 of
byte 0, type = bits 0–6 of byte 0, length = big-endian 24-bit of bytes 1–3
(payload exactly that many following bytes), and the scan stops immediately
after the first block whose terminal bit is set (all earlier blocks have it
clear, the final one has it set). -/
theorem scan_chains_and_decodes (file : List Nat) (bs : List MetadataBlock)
    (h : readAllMetadataBlocks file = some bs) :
    bs ≠ [] ∧ chainedFrom 4 bs ∧ (∀ b ∈ bs, decodesHeader file b) ∧
    (∀ b ∈ bs.dropLast, b.IsLastBlock = false) ∧
    bs.getLast?.map (fun b => b.IsLastBlock) = some true :=
  readAllFrom_spec file file.length 4 bs h

theorem scan_chains_and_decodes_witness :
    readAllMetadataBlocks sampleFile = some sampleBlocks ∧
    (sampleBlocks ≠ [] ∧ chainedFrom 4 sampleBlocks ∧
      (∀ b ∈ sampleBlocks, decodesHeader sampleFile b) ∧
      (∀ b ∈ sampleBlocks.dropLast, b.IsLastBlock = false) ∧
      sampleBlocks.getLast?.map (fun b => b.IsLastBlock) = some true) :=
  ⟨by decide, scan_chains_and_decodes sampleFile sampleBlocks (by decide)⟩

/-! ### Raw-audio preservation -/

lemma and128_eq (b0 : Nat) : b0 &&& 128 = 0 ∨ b0 &&& 128 = 128 := by
  have h := Nat.and_two_pow b0 7
  norm_num at h
  rcases Bool.eq_false_or_eq_true (b0.testBit 7) with ht | ht <;> rw [ht] at h <;> simp at h <;>
    [exact Or.inr h; exact Or.inl h]

/-- The terminal-bit test of `getMetadataEndOffset` (`headerBytes[0] & 0x80 != 0`)
agrees with the scanner's decode (`(headerBytes[0] & 0x80) >> 7 == 1`). -/
lemma isLast_decode_iff (b0 : Nat) :
    ((((b0 &&& 0x80) >>> 7) == 1) = true) ↔ (b0 &&& 0x80 ≠ 0) := by
  rcases and128_eq b0 with h | h <;> rw [show (0x80 : Nat) = 128 from rfl, h] <;> simp

/-- Whenever the block scan succeeds, the header-only walk of
`getMetadataEndOffset` succeeds too and returns the start offset plus the sum
of `4 + payload length` over the scanned blocks. -/
lemma readAllFrom_endOffset (file : List Nat) :
    ∀ (fuel off : Nat) (bs : List MetadataBlock),
      readAllFrom file fuel off = some bs →
      getMetadataEndOffsetFrom file fuel off =
        some (off + (bs.map (fun b => 4 + b.BlockData.length)).sum) := by
  intro fuel
  induction fuel with
  | zero => intro off bs h; cases h
  | succ n ih =>
    intro off bs h
    rw [readAllFrom] at h
    cases hrb : readMetadataBlock file off with
    | none => rw [hrb] at h; cases h
    | some b =>
      rw [hrb] at h
      dsimp only at h
      obtain ⟨hidx, b0, b1, b2, b3, hread, hdata, hlastb, _, _, _, _, hlen⟩ :=
        readMetadataBlock_spec hrb
      rw [hidx] at hread
      rw [getMetadataEndOffsetFrom, hread]
      dsimp only
      by_cases hlast : b.IsLastBlock
      · rw [if_pos hlast] at h
        have hbs : bs = [b] := (Option.some.inj h).symm
        subst hbs
        rw [if_pos (by rw [← isLast_decode_iff]; rw [hlast] at hlastb; exact hlastb.symm)]
        congr 1
        simp only [List.map_cons, List.map_nil, List.sum_cons, List.sum_nil, hlen]
        omega
      · rw [if_neg hlast] at h
        cases hrest : readAllFrom file n (off + 4 + b.BlockData.length) with
        | none => rw [hrest] at h; cases h
        | some rest =>
          rw [hrest] at h
          have hbs : bs = b :: rest := (Option.some.inj h).symm
          subst hbs
          have hbit : ¬ (b0 &&& 0x80 ≠ 0) := by
            rw [← isLast_decode_iff]
            rw [eq_comm, ← hlastb]
            simpa using hlast
          rw [if_neg hbit, ← hlen]
          rw [ih (off + 4 + b.BlockData.length) rest hrest]
          congr 1
          simp only [List.map_cons, List.sum_cons]
          omega

/-- Decomposition of a successful `Save` into its four I/O stages and the
final byte equation. -/
lemma Save_eq (st : Flac) (order : List (List Nat)) (out : List Nat)
    (hs : Save st order = some out) :
    ∃ blocks magic nbs endOff,
      readAllMetadataBlocks st.file = some blocks ∧
      readBytes st.file 0 4 = some magic ∧
      newBlocksOf st order blocks = some nbs ∧
      getMetadataEndOffset st.file = some endOff ∧
      out = magic ++ ((markLast nbs).map blockBytes).flatten ++ st.file.drop endOff := by
  unfold Save at hs
  cases h1 : readAllMetadataBlocks st.file with
  | none => rw [h1] at hs; cases hs
  | some blocks =>
    rw [h1] at hs; dsimp only at hs
    cases h2 : readBytes st.file 0 4 with
    | none => rw [h2] at hs; cases hs
    | some magic =>
      rw [h2] at hs; dsimp only at hs
      cases h3 : newBlocksOf st order blocks with
      | none => rw [h3] at hs; cases hs
      | some nbs =>
        rw [h3] at hs; dsimp only at hs
        cases h4 : getMetadataEndOffset st.file with
        | none => rw [h4] at hs; cases hs
        | some endOff =>
          rw [h4] at hs; dsimp only at hs
          exact ⟨blocks, magic, nbs, endOff, rfl, rfl, h3, rfl, (Option.some.inj hs).symm⟩

/-- **C5.** On every successful `Save` the output splits as the 4 magic bytes,
a metadata section, and then — verbatim — every byte of the source container
from the source's metadata-end offset on, that offset being 4 plus the sum of
`4 + length` over the original scanned blocks (each block's header length
field equalling its payload length). Moreover no metadata mutation ever
touches the container bytes. -/
theorem save_copies_audio_verbatim (st : Flac) (order : List (List Nat)) (out : List Nat)
    (hs : Save st order = some out) :
    (∃ blocks endOff meta,
      readAllMetadataBlocks st.file = some blocks ∧
      getMetadataEndOffset st.file = some endOff ∧
      endOff = 4 + (blocks.map (fun b => 4 + b.BlockData.length)).sum ∧
      (∀ b ∈ blocks, b.BlockHeader.BlockLength = b.BlockData.length) ∧
      out = st.file.take 4 ++ meta ++ st.file.drop endOff) ∧
    (∀ t v, (SetMetadata st t v).file = st.file) ∧
    (∀ t i st', RemoveMetadata st t i = some st' → st'.file = st.file) ∧
    (∀ m img st', SetCoverPictureFromBytes st m img = some st' → st'.file = st.file) ∧
    (∀ i st', RemoveCoverPicture st i = some st' → st'.file = st.file) := by
  obtain ⟨blocks, magic, nbs, endOff, h1, h2, h3, h4, hout⟩ := Save_eq st order out hs
  refine ⟨⟨blocks, endOff, ((markLast nbs).map blockBytes).flatten, h1, h4, ?_, ?_, ?_⟩,
    ?_, ?_, ?_, ?_⟩
  · have hend := readAllFrom_endOffset st.file st.file.length 4 blocks h1
    have h4' : getMetadataEndOffsetFrom st.file st.file.length 4 = some endOff := h4
    exact Option.some.inj (h4'.symm.trans hend)
  · intro b hb
    obtain ⟨-, -, hdecs, -, -⟩ := readAllFrom_spec st.file st.file.length 4 blocks h1
    obtain ⟨b0, b1, b2, b3, -, -, -, -, -, hBL, -, hlen⟩ := hdecs b hb
    rw [hBL, ← hlen]
  · have hmagic : magic = st.file.take 4 := by
      unfold readBytes at h2
      split at h2
      · rw [← Option.some.inj h2, List.drop_zero]
      · cases h2
    rw [hout, hmagic]
  · intro t v; rfl
  · intro t i st' h
    unfold RemoveMetadata at h
    split at h
    · cases h
    · rw [← Option.some.inj h]
  · intro m img st' h
    unfold SetCoverPictureFromBytes at h
    split at h
    · cases h
    · rw [← Option.some.inj h]
  · intro i st' h
    unfold RemoveCoverPicture at h
    split at h
    · cases h
    · rw [← Option.some.inj h]

theorem save_copies_audio_verbatim_witness :
    Save sampleSession sampleOrder = some sampleSaved ∧
    (∀ t v, (SetMetadata sampleSession t v).file = sampleSession.file) :=
  ⟨by decide,
    (save_copies_audio_verbatim sampleSession sampleOrder sampleSaved (by decide)).2.1⟩

/-! ### Staged cover versus removal flag -/

lemma createPictureBlock_length (img mime : List Nat) :
    (createPictureBlock img mime).length = 36 + mime.length + img.length := by
  unfold createPictureBlock beBytes4
  dsimp only
  simp only [List.length_append, List.length_cons, List.length_nil]
  omega

/-- In the rebuilt block list, a nonempty staged cover always contributes its
placeholder PICTURE block, regardless of the `removeCoverPicture` flag. -/
lemma pendingPicture_in_newBlocks (s : Flac) (blocks nbs : List MetadataBlock)
    (order : List (List Nat)) (hplen : s.pendingCoverPicture.length > 0)
    (hlt4 : ¬ s.pendingCoverPicture.length < 4)
    (hnbs : newBlocksOf s order blocks = some nbs) :
    placeholderBlock s.pendingCoverPicture ∈ nbs := by
  unfold newBlocksOf at hnbs
  split at hnbs
  · cases hvp : vorbisPartOf s order with
    | none => rw [hvp] at hnbs; cases hnbs
    | some vp =>
      rw [hvp] at hnbs
      dsimp only at hnbs
      rw [show picturePartOf s = some (some (placeholderBlock s.pendingCoverPicture)) from by
        unfold picturePartOf; rw [if_pos hplen, if_neg hlt4]] at hnbs
      dsimp only at hnbs
      rw [← Option.some.inj hnbs]
      simp
  · cases hnbs

/-- **C10.** A staged cover always wins over a removal request: staging a
cover and calling `RemoveCoverPicture` commute (either order yields the same
session or both fail identically), and on the resulting session the rebuilt
block list contains the PICTURE block built from the newly staged bytes — the
`removeCoverPicture` flag only ever suppresses the block parsed at open,
never a pending one. -/
theorem staged_cover_beats_removal (st : Flac) (mime img : List Nat)
    (hlen : 512 ≤ img.length) (ign : Bool) :
    ((SetCoverPictureFromBytes st mime img).bind (fun s => RemoveCoverPicture s ign) =
      (RemoveCoverPicture st ign).bind (fun s => SetCoverPictureFromBytes s mime img)) ∧
    (∀ st', (SetCoverPictureFromBytes st mime img).bind (fun s => RemoveCoverPicture s ign)
        = some st' →
      st'.pendingCoverPicture = createPictureBlock img mime ∧
      st'.removeCoverPicture = true ∧
      ∀ (blocks nbs : List MetadataBlock) (order : List (List Nat)),
        newBlocksOf st' order blocks = some nbs →
        placeholderBlock st'.pendingCoverPicture ∈ nbs) := by
  have hnlt : ¬ img.length < 512 := Nat.not_lt.mpr hlen
  have hset : SetCoverPictureFromBytes st mime img =
      some { st with pendingCoverPicture := createPictureBlock img mime } := by
    unfold SetCoverPictureFromBytes
    rw [if_neg hnlt]
  constructor
  · by_cases hp : st.parsedCoverPicture = none <;> by_cases hi : ign <;>
      simp [SetCoverPictureFromBytes, RemoveCoverPicture, hnlt, hp, hi]
  · intro st' h
    rw [hset, Option.some_bind] at h
    unfold RemoveCoverPicture at h
    split at h
    · cases h
    · have hst' := (Option.some.inj h).symm
      have hpend : st'.pendingCoverPicture = createPictureBlock img mime := by rw [hst']
      have hrem : st'.removeCoverPicture = true := by rw [hst']
      refine ⟨hpend, hrem, ?_⟩
      intro blocks nbs order hnbs
      exact pendingPicture_in_newBlocks st' blocks nbs order
        (by rw [hpend, createPictureBlock_length]; omega)
        (by rw [hpend, createPictureBlock_length]; omega) hnbs

theorem staged_cover_beats_removal_witness :
    512 ≤ (List.replicate 512 (0 : Nat)).length ∧
    ((SetCoverPictureFromBytes emptyFlac [] (List.replicate 512 0)).bind
        (fun s => RemoveCoverPicture s true) =
      (RemoveCoverPicture emptyFlac true).bind
        (fun s => SetCoverPictureFromBytes s [] (List.replicate 512 0))) :=
  ⟨by simp only [List.length_replicate]; omega,
    (staged_cover_beats_removal emptyFlac [] (List.replicate 512 0)
      (by simp only [List.length_replicate]; omega) true).1⟩

/-- **C9 (counterexample).** `c9File`'s scan holds two VORBIS_COMMENT blocks,
yet `getBlock` surfaces no error: it silently returns the later block (offset
34). No `DuplicateVorbisBlock` failure exists anywhere in the code. -/
theorem getBlock_no_duplicate_error :
    (readAllMetadataBlocks c9File).map
      (fun bs => bs.countP (fun b => b.BlockType == nVORBIS)) = some 2 ∧
    (getBlock c9File nVORBIS).map (fun ob => ob.map (fun b => b.Index)) = some (some 34) := by
  decide

/-! ### Save's structural invariants (C4): bit patching, marking, rescanning -/

lemma testBit_128 (i : Nat) : (128 : Nat).testBit i = decide (7 = i) := by
  rw [show (128 : Nat) = 2 ^ 7 from rfl, Nat.testBit_two_pow]

lemma testBit_127 (i : Nat) : (127 : Nat).testBit i = decide (i < 7) := by
  rw [show (127 : Nat) = 2 ^ 7 - 1 from rfl, Nat.testBit_two_pow_sub_one]

lemma or128_and127 (a : Nat) : (a ||| 128) &&& 127 = a &&& 127 := by
  apply Nat.eq_of_testBit_eq
  intro i
  rw [Nat.testBit_and, Nat.testBit_and, Nat.testBit_or, testBit_128, testBit_127]
  by_cases hi : i < 7
  · simp [hi, Nat.ne_of_gt hi]
  · simp [hi]

lemma and127_and127 (a : Nat) : (a &&& 127) &&& 127 = a &&& 127 := by
  rw [Nat.and_assoc, show (127 : Nat) &&& 127 = 127 from by decide]

lemma or128_and128 (a : Nat) : (a ||| 128) &&& 128 = 128 := by
  apply Nat.eq_of_testBit_eq
  intro i
  rw [Nat.testBit_and, Nat.testBit_or, testBit_128]
  by_cases hi : (7 : Nat) = i <;> simp [hi]

lemma and127_and128 (a : Nat) : (a &&& 127) &&& 128 = 0 := by
  apply Nat.eq_of_testBit_eq
  intro i
  rw [Nat.testBit_and, Nat.testBit_and, testBit_128, testBit_127, Nat.zero_testBit]
  by_cases hi : (7 : Nat) = i
  · simp [hi.symm]
  · simp [hi]

/-- Patching the terminal bit never changes the other header bytes, the
payload, or the 7-bit type code, and forces the flag to the requested value. -/
lemma setLastBit_spec (h0 h1 h2 h3 : Nat) (isLast : Bool) :
    setLastBit [h0, h1, h2, h3] isLast =
      (if isLast then h0 ||| 128 else h0 &&& 127) :: [h1, h2, h3] ∧
    (((if isLast then h0 ||| 128 else h0 &&& 127) &&& 0x80) >>> 7 == 1) = isLast ∧
    ((if isLast then h0 ||| 128 else h0 &&& 127) &&& 0x7F) = h0 &&& 0x7F := by
  refine ⟨rfl, ?_, ?_⟩
  · cases isLast
    · simp [and127_and128]
    · simp [or128_and128]
  · cases isLast
    · simp [and127_and127]
    · simp [or128_and127]

/-- The block produced by the marking loop for one block, at a given flag. -/
def markedBlock (b : MetadataBlock) (isLast : Bool) : MetadataBlock :=
  { b with BlockHeader := { b.BlockHeader with Data := setLastBit b.BlockHeader.Data isLast } }

lemma markedBlock_emitHeaderOK {b : MetadataBlock} (hb : emitHeaderOK b) (isLast : Bool) :
    emitHeaderOK (markedBlock b isLast) := by
  obtain ⟨h0, h1, h2, h3, hdata, hlen⟩ := hb
  exact ⟨if isLast then h0 ||| 128 else h0 &&& 127, h1, h2, h3,
    by rw [markedBlock, hdata]; exact congrArg (· :: [h1, h2, h3]) rfl, hlen⟩

lemma markedBlock_lastFlag {b : MetadataBlock} (hb : emitHeaderOK b) (isLast : Bool) :
    lastFlag (markedBlock b isLast) = isLast := by
  obtain ⟨h0, h1, h2, h3, hdata, hlen⟩ := hb
  rw [lastFlag, markedBlock, hdata]
  exact (setLastBit_spec h0 h1 h2 h3 isLast).2.1

lemma markedBlock_typeCode {b : MetadataBlock} (hb : emitHeaderOK b) (isLast : Bool) :
    typeCode (markedBlock b isLast) = typeCode b := by
  obtain ⟨h0, h1, h2, h3, hdata, hlen⟩ := hb
  rw [typeCode, typeCode, markedBlock, hdata]
  exact (setLastBit_spec h0 h1 h2 h3 isLast).2.2

lemma markedBlock_blockData (b : MetadataBlock) (isLast : Bool) :
    (markedBlock b isLast).BlockData = b.BlockData := rfl

lemma markLast_eq (nbs : List MetadataBlock) :
    markLast nbs = match nbs with
      | [] => []
      | [b] => [markedBlock b true]
      | b :: rest => markedBlock b false :: markLast rest := by
  cases nbs with
  | nil => rfl
  | cons b rest => cases rest <;> rfl

/-- After the marking loop: every block is still emittable, type codes and
payloads are unchanged, and the flag sequence is `false … false true`. -/
lemma markLast_spec (nbs : List MetadataBlock) (hne : nbs ≠ [])
    (hhdr : ∀ b ∈ nbs, emitHeaderOK b) :
    wfFlags (markLast nbs) ∧
    (markLast nbs).map typeCode = nbs.map typeCode ∧
    (markLast nbs).map (fun b => b.BlockData) = nbs.map (fun b => b.BlockData) ∧
    (markLast nbs).map lastFlag = List.replicate (nbs.length - 1) false ++ [true] ∧
    (∀ b ∈ markLast nbs, emitHeaderOK b) := by
  induction nbs with
  | nil => exact absurd rfl hne
  | cons b rest ih =>
    cases rest with
    | nil =>
      have hb := hhdr b (List.mem_cons_self _ _)
      rw [markLast_eq]
      refine ⟨⟨markedBlock_emitHeaderOK hb true, markedBlock_lastFlag hb true⟩, ?_, ?_, ?_, ?_⟩
      · simp [markedBlock_typeCode hb true]
      · simp [markedBlock_blockData]
      · simp [markedBlock_lastFlag hb true]
      · intro b' hb'
        rw [List.mem_singleton.mp hb']
        exact markedBlock_emitHeaderOK hb true
    | cons c rest' =>
      have hb := hhdr b (List.mem_cons_self _ _)
      have hrest : ∀ x ∈ c :: rest', emitHeaderOK x :=
        fun x hx => hhdr x (List.mem_cons_of_mem _ hx)
      obtain ⟨ihwf, ihty, ihdata, ihflags, ihhdr⟩ := ih (by simp) hrest
      rw [markLast_eq]
      dsimp only
      have hmarkne : markLast (c :: rest') ≠ [] := by
        rw [markLast_eq]
        cases rest' <;> simp
      refine ⟨?_, ?_, ?_, ?_, ?_⟩
      · -- wfFlags (markedBlock b false :: markLast (c :: rest'))
        obtain ⟨m, ms, hm⟩ := List.exists_cons_of_ne_nil hmarkne
        rw [hm]
        rw [hm] at ihwf
        exact ⟨markedBlock_emitHeaderOK hb false, markedBlock_lastFlag hb false, ihwf⟩
      · simp [markedBlock_typeCode hb false, ihty]
      · simp [markedBlock_blockData, ihdata]
      · simp only [List.map_cons, markedBlock_lastFlag hb false, ihflags, List.length_cons,
          Nat.add_sub_cancel]
        rw [List.replicate_succ]
        simp
      · intro b' hb'
        rcases List.mem_cons.mp hb' with rfl | hb''
        · exact markedBlock_emitHeaderOK hb false
        · exact ihhdr _ hb''

/-- Scanning the rebuilt container: when the emitted block bytes start at
`off` under the wf flag discipline, the scanner returns exactly their rescans,
stopping at the terminal block and never reading into the audio suffix. -/
lemma readAllFrom_of_emitted (out : List Nat) (bs : List MetadataBlock) :
    ∀ (off : Nat) (audio : List Nat) (fuel : Nat),
      bs ≠ [] →
      out.drop off = (bs.map blockBytes).flatten ++ audio →
      bs.length ≤ fuel →
      wfFlags bs →
      readAllFrom out fuel off = some (rescanFrom off bs) := by
  induction bs with
  | nil => intro off audio fuel hne _ _ _; exact absurd rfl hne
  | cons b rest ih =>
    intro off audio fuel hne hdrop hfuel hwf
    have hbOK : emitHeaderOK b := by
      cases rest with
      | nil => exact hwf.1
      | cons c t => exact hwf.1
    obtain ⟨h0, h1, h2, h3, hdata, hlen⟩ := hbOK
    have hbb : blockBytes b = [h0, h1, h2, h3] ++ b.BlockData := by
      rw [blockBytes, hdata]
    have hdrop2 : out.drop off =
        [h0, h1, h2, h3] ++ (b.BlockData ++ ((rest.map blockBytes).flatten ++ audio)) := by
      rw [hdrop]; simp [hbb]
    have hdl : (out.drop off).length = out.length - off := List.length_drop _ _
    have hlenout : out.length - off =
        4 + (b.BlockData.length + ((rest.map blockBytes).flatten.length + audio.length)) := by
      rw [← hdl, hdrop2]; simp; omega
    have hdrop4 : out.drop (off + 4) =
        b.BlockData ++ ((rest.map blockBytes).flatten ++ audio) := by
      rw [← List.drop_drop, hdrop2,
        show (4 : Nat) = [h0, h1, h2, h3].length from rfl, List.drop_left]
    have hdropL : out.drop (off + 4 + b.BlockData.length) =
        (rest.map blockBytes).flatten ++ audio := by
      rw [← List.drop_drop, hdrop4, List.drop_left]
    cases fuel with
    | zero => simp at hfuel
    | succ n =>
      have hrb4 : readBytes out off 4 = some [h0, h1, h2, h3] := by
        unfold readBytes
        rw [if_pos (by omega)]
        rw [hdrop2, show (4 : Nat) = [h0, h1, h2, h3].length from rfl, List.take_left]
      have hrbL : readBytes out (off + 4) (beUint24 h1 h2 h3) = some b.BlockData := by
        unfold readBytes
        rw [if_pos (by omega), hdrop4, hlen, List.take_left]
      have hrmb : readMetadataBlock out off = some (scannedBlock b off) := by
        unfold readMetadataBlock
        rw [hrb4]
        dsimp only
        rw [hrbL]
        dsimp only
        unfold scannedBlock
        rw [hdata]
        try rfl
      rw [readAllFrom, hrmb]
      dsimp only
      have hflag : (scannedBlock b off).IsLastBlock = lastFlag b := by
        unfold scannedBlock lastFlag
        rw [hdata]
        try rfl
      cases rest with
      | nil =>
        rw [if_pos (by rw [hflag, hwf.2])]
        rfl
      | cons c t =>
        rw [if_neg (by rw [hflag, hwf.2.1]; simp)]
        have hrec := ih (off + 4 + b.BlockData.length) audio n (by simp) hdropL
          (by simpa using hfuel) hwf.2.2
        rw [show (scannedBlock b off).BlockData.length = b.BlockData.length from rfl, hrec]
        rfl

/-- The rescanned sequence keeps lengths, payloads, flags and header-derived
names in lockstep with the emitted sequence. -/
lemma rescanFrom_maps (bs : List MetadataBlock) :
    ∀ off : Nat,
      (rescanFrom off bs).map (fun b => b.IsLastBlock) = bs.map lastFlag ∧
      (rescanFrom off bs).map (fun b => b.BlockType) =
        bs.map (fun b => blockTypeName (typeCode b)) ∧
      (rescanFrom off bs).map blockBytes = bs.map (fun b =>
        ([b.BlockHeader.Data.getD 0 0, b.BlockHeader.Data.getD 1 0,
          b.BlockHeader.Data.getD 2 0, b.BlockHeader.Data.getD 3 0] ++ b.BlockData)) := by
  induction bs with
  | nil => intro off; exact ⟨rfl, rfl, rfl⟩
  | cons b rest ih =>
    intro off
    obtain ⟨ih1, ih2, ih3⟩ := ih (off + 4 + b.BlockData.length)
    refine ⟨?_, ?_, ?_⟩
    · simp only [rescanFrom, List.map_cons, ih1]
      rfl
    · simp only [rescanFrom, List.map_cons, ih2]
      rfl
    · simp only [rescanFrom, List.map_cons, ih3]
      rfl

lemma eqFoldB_comm (a b : List Nat) : eqFoldB a b = eqFoldB b a := by
  by_cases h : toLowerB a = toLowerB b
  · simp [eqFoldB, h]
  · have h' : ¬ toLowerB b = toLowerB a := fun hh => h hh.symm
    simp [eqFoldB, h, h']

lemma typeCode_of_name_streaminfo {t : Nat}
    (h : eqFoldB (blockTypeName t) nSTREAMINFO = true) : t = 0 := by
  by_contra hne
  unfold blockTypeName at h
  iterate 8 (all_goals (try split at h))
  all_goals first
  | exact hne (by assumption)
  | (revert h; decide)

lemma typeCode_of_name_vorbis {t : Nat}
    (h : eqFoldB (blockTypeName t) nVORBIS = true) : t = 4 := by
  by_contra hne
  unfold blockTypeName at h
  iterate 8 (all_goals (try split at h))
  all_goals first
  | exact hne (by assumption)
  | (revert h; decide)

lemma typeCode_of_name_picture {t : Nat}
    (h : eqFoldB (blockTypeName t) nPICTURE = true) : t = 6 := by
  by_contra hne
  unfold blockTypeName at h
  iterate 8 (all_goals (try split at h))
  all_goals first
  | exact hne (by assumption)
  | (revert h; decide)

/-- A successful `getBlock` lookup yields a block of the scan bearing the
requested type name (up to case). -/
lemma getBlock_some_spec {file ty : List Nat} {blocks : List MetadataBlock} {b : MetadataBlock}
    (hval : blockMappingValues.any (fun v => eqFoldB v ty) = true)
    (hscan : readAllMetadataBlocks file = some blocks)
    (hgb : getBlock file ty = some (some b)) :
    b ∈ blocks ∧ eqFoldB b.BlockType ty = true := by
  unfold getBlock at hgb
  rw [if_pos hval, hscan] at hgb
  dsimp only at hgb
  rw [foldl_lastMatch] at hgb
  cases hl : (blocks.filter (fun b => eqFoldB b.BlockType ty)).getLast? with
  | none => rw [hl] at hgb; cases hgb
  | some x =>
    rw [hl] at hgb
    dsimp only at hgb
    have hxb : x = b := Option.some.inj (Option.some.inj hgb)
    subst hxb
    have hmem : x ∈ blocks.filter (fun b => eqFoldB b.BlockType ty) := by
      obtain ⟨hne, hx⟩ := List.mem_getLast?_eq_getLast (show x ∈ _ from by rw [hl]; exact rfl)
      rw [hx]
      exact List.getLast_mem hne
    exact ⟨(List.mem_filter.mp hmem).1, (List.mem_filter.mp hmem).2⟩

lemma decodesHeader_emitOK {file : List Nat} {b : MetadataBlock} (h : decodesHeader file b) :
    emitHeaderOK b ∧ b.BlockType = blockTypeName (typeCode b) := by
  obtain ⟨b0, b1, b2, b3, _, hdata, _, _, hname, _, _, hlen⟩ := h
  refine ⟨⟨b0, b1, b2, b3, hdata, hlen.symm⟩, ?_⟩
  rw [hname, typeCode, hdata]
  rfl

lemma scanned_block_facts {file : List Nat} {blocks : List MetadataBlock}
    (hscan : readAllMetadataBlocks file = some blocks) {b : MetadataBlock} (hb : b ∈ blocks) :
    emitHeaderOK b ∧ b.BlockType = blockTypeName (typeCode b) :=
  decodesHeader_emitOK ((readAllFrom_spec file file.length 4 blocks hscan).2.2.1 b hb)

lemma ToBytes3_digits (L : Nat) (h : L < 16777216) :
    ToBytes L 3 false = [L / 65536 % 256, L / 256 % 256, L % 256] ∧
    beUint24 (L / 65536 % 256) (L / 256 % 256) (L % 256) = L := by
  have hmod : L % 4294967296 = L := Nat.mod_eq_of_lt (by omega)
  constructor
  · unfold ToBytes
    dsimp only
    rw [hmod, if_neg (show ¬(false = true) from by decide)]
    rfl
  · unfold beUint24
    omega

lemma createVorbisBlock_shape {st : Flac} {order : List (List Nat)} {vb : List Nat}
    (h : createVorbisBlock st order = some vb) :
    ∃ body : List Nat, vb = 4 :: (ToBytes body.length 3 false ++ body) := by
  unfold createVorbisBlock at h
  split at h
  · cases h
  · exact ⟨_, (Option.some.inj h).symm⟩

/-- The emission facts for any placeholder block whose byte buffer is a 4-byte
header followed by a payload matching the header length field. -/
lemma placeholder_emit_of_shape (h0 l1 l2 l3 : Nat) (bd : List Nat)
    (hlen : beUint24 l1 l2 l3 = bd.length) :
    emitHeaderOK (placeholderBlock ([h0, l1, l2, l3] ++ bd)) ∧
    typeCode (placeholderBlock ([h0, l1, l2, l3] ++ bd)) = h0 &&& 127 := by
  constructor
  · exact ⟨h0, l1, l2, l3, rfl, hlen⟩
  · rfl

lemma placeholder_vorbis_facts {st : Flac} {order : List (List Nat)} {vb : List Nat}
    (h : createVorbisBlock st order = some vb) (hsize : vb.length < 16777220) :
    emitHeaderOK (placeholderBlock vb) ∧ typeCode (placeholderBlock vb) = 4 := by
  obtain ⟨body, rfl⟩ := createVorbisBlock_shape h
  have hblen : body.length < 16777216 := by
    have h3 : (ToBytes body.length 3 false).length = 3 := by
      unfold ToBytes; dsimp only; split <;> rfl
    simp only [List.length_cons, List.length_append, h3] at hsize
    omega
  obtain ⟨hdig, hval⟩ := ToBytes3_digits body.length hblen
  have hshape : (4 : Nat) :: (ToBytes body.length 3 false ++ body) =
      [4, body.length / 65536 % 256, body.length / 256 % 256, body.length % 256] ++ body := by
    rw [hdig]
    rfl
  rw [hshape]
  obtain ⟨hok, hty⟩ := placeholder_emit_of_shape 4 _ _ _ body hval
  exact ⟨hok, by rw [hty]; decide⟩

lemma placeholder_picture_facts {img mime : List Nat}
    (hsize : 32 + mime.length + img.length < 16777216) :
    emitHeaderOK (placeholderBlock (createPictureBlock img mime)) ∧
    typeCode (placeholderBlock (createPictureBlock img mime)) = 6 := by
  obtain ⟨bd, hcp, hbdlen⟩ : ∃ bd : List Nat,
      createPictureBlock img mime =
        [6 ||| 0x80, bd.length % 4294967296 / 65536 % 256, bd.length % 4294967296 / 256 % 256,
          bd.length % 4294967296 % 256] ++ bd ∧
      bd.length = 32 + mime.length + img.length := by
    refine ⟨_, rfl, ?_⟩
    unfold beBytes4
    dsimp only
    simp only [List.length_append, List.length_cons, List.length_nil]
    omega
  have hmod : bd.length % 4294967296 = bd.length := Nat.mod_eq_of_lt (by omega)
  have hval : beUint24 (bd.length % 4294967296 / 65536 % 256)
      (bd.length % 4294967296 / 256 % 256) (bd.length % 4294967296 % 256) = bd.length := by
    unfold beUint24
    rw [hmod]
    omega
  rw [hcp]
  obtain ⟨hok, hty⟩ := placeholder_emit_of_shape (6 ||| 0x80) _ _ _ bd hval
  exact ⟨hok, by rw [hty]; decide⟩

lemma vorbisPartOf_spec {st : Flac} {order : List (List Nat)} {vp : Option MetadataBlock}
    {blocks : List MetadataBlock}
    (hscan : readAllMetadataBlocks st.file = some blocks)
    (hvb : (createVorbisBlock st order).all (fun vb => decide (vb.length < 16777220)) = true)
    (h : vorbisPartOf st order = some vp) :
    ∀ b ∈ vp.toList, emitHeaderOK b ∧ typeCode b = 4 := by
  intro b hb
  unfold vorbisPartOf at h
  split at h
  · cases hcvb : createVorbisBlock st order with
    | none => rw [hcvb] at h; cases h
    | some vb =>
      rw [hcvb] at h
      dsimp only at h
      injection h with h'
      subst h'
      have hbe : b = placeholderBlock vb := by simpa using hb
      subst hbe
      have hsize : vb.length < 16777220 := by
        rw [hcvb] at hvb
        simpa using hvb
      exact placeholder_vorbis_facts hcvb hsize
  · split at h
    · cases hgv : getBlock st.file nVORBIS with
      | none => rw [hgv] at h; cases h
      | some ov =>
        cases ov with
        | none => rw [hgv] at h; dsimp only at h; cases h
        | some vbk =>
          rw [hgv] at h
          dsimp only at h
          injection h with h'
          subst h'
          have hbe : b = vbk := by simpa using hb
          subst hbe
          obtain ⟨hmem, heq⟩ := getBlock_some_spec (by decide) hscan hgv
          obtain ⟨hok, hnm⟩ := scanned_block_facts hscan hmem
          exact ⟨hok, typeCode_of_name_vorbis (by rw [← hnm]; exact heq)⟩
    · injection h with h'
      subst h'
      simp at hb

lemma picturePartOf_spec {st : Flac} {pp : Option MetadataBlock} {blocks : List MetadataBlock}
    (hscan : readAllMetadataBlocks st.file = some blocks)
    (hpp : st.pendingCoverPicture = [] ∨ ∃ img mime,
      st.pendingCoverPicture = createPictureBlock img mime ∧
      32 + mime.length + img.length < 16777216)
    (hpc : st.parsedCoverPicture.all
      (fun pb => decide (getBlock st.file nPICTURE = some (some pb))) = true)
    (h : picturePartOf st = some pp) :
    ∀ b ∈ pp.toList, emitHeaderOK b ∧ typeCode b = 6 := by
  intro b hb
  unfold picturePartOf at h
  split at h
  · next hgt =>
    rcases hpp with hempty | ⟨img, mime, hcp, hsize⟩
    · rw [hempty] at hgt; simp at hgt
    · split at h
      · cases h
      · injection h with h'
        subst h'
        have hbe : b = placeholderBlock st.pendingCoverPicture := by simpa using hb
        subst hbe
        rw [hcp]
        exact placeholder_picture_facts hsize
  · cases hpcb : st.parsedCoverPicture with
    | none =>
      rw [hpcb] at h
      dsimp only at h
      injection h with h'
      subst h'
      simp at hb
    | some pb =>
      rw [hpcb] at h
      dsimp only at h
      split at h
      · injection h with h'
        subst h'
        simp at hb
      · injection h with h'
        subst h'
        have hbe : b = pb := by simpa using hb
        rw [hpcb] at hpc
        have hgp : getBlock st.file nPICTURE = some (some pb) := by simpa using hpc
        obtain ⟨hmem, heq⟩ := getBlock_some_spec (by decide) hscan hgp
        obtain ⟨hok, hnm⟩ := scanned_block_facts hscan hmem
        rw [hbe]
        exact ⟨hok, typeCode_of_name_picture (by rw [← hnm]; exact heq)⟩

lemma filtered_facts {file : List Nat} {blocks : List MetadataBlock}
    (hscan : readAllMetadataBlocks file = some blocks) :
    ∀ b ∈ GetFilteredBlocks blocks [nSTREAMINFO, nVORBIS, nPICTURE],
      emitHeaderOK b ∧ typeCode b ≠ 0 := by
  intro b hb
  rw [GetFilteredBlocks, List.mem_filter] at hb
  obtain ⟨hmem, hflt⟩ := hb
  obtain ⟨hok, hnm⟩ := scanned_block_facts hscan hmem
  refine ⟨hok, ?_⟩
  intro h0
  rw [h0] at hnm
  have hc : containsIgnoreCase [nSTREAMINFO, nVORBIS, nPICTURE] b.BlockType = true := by
    rw [hnm]
    decide
  rw [hc] at hflt
  cases hflt

/-- The rebuilt block list before marking: every block carries a well-formed
4-byte header matching its payload, the STREAMINFO block (type code 0) comes
first, and every other block's type code is nonzero. -/
lemma newBlocksOf_spec (st : Flac) (order : List (List Nat)) (blocks nbs : List MetadataBlock)
    (hscan : readAllMetadataBlocks st.file = some blocks)
    (hpp : st.pendingCoverPicture = [] ∨ ∃ img mime,
      st.pendingCoverPicture = createPictureBlock img mime ∧
      32 + mime.length + img.length < 16777216)
    (hvb : (createVorbisBlock st order).all (fun vb => decide (vb.length < 16777220)) = true)
    (hpc : st.parsedCoverPicture.all
      (fun pb => decide (getBlock st.file nPICTURE = some (some pb))) = true)
    (hnbs : newBlocksOf st order blocks = some nbs) :
    (∀ b ∈ nbs, emitHeaderOK b) ∧
    ∃ rest, nbs.map typeCode = 0 :: rest ∧ (∀ t ∈ rest, t ≠ 0) := by
  unfold newBlocksOf at hnbs
  cases hgb : getBlock st.file nSTREAMINFO with
  | none => rw [hgb] at hnbs; cases hnbs
  | some osi =>
    rw [hgb] at hnbs
    cases osi with
    | none => dsimp only at hnbs; cases hnbs
    | some si =>
      dsimp only at hnbs
      obtain ⟨hsiMem, hsiEq⟩ := getBlock_some_spec (by decide) hscan hgb
      obtain ⟨hsiOK, hsiName⟩ := scanned_block_facts hscan hsiMem
      have hsiCode : typeCode si = 0 :=
        typeCode_of_name_streaminfo (by rw [← hsiName]; exact hsiEq)
      cases hvp : vorbisPartOf st order with
      | none => rw [hvp] at hnbs; cases hnbs
      | some vp =>
        rw [hvp] at hnbs
        dsimp only at hnbs
        cases hppb : picturePartOf st with
        | none => rw [hppb] at hnbs; cases hnbs
        | some pp =>
          rw [hppb] at hnbs
          dsimp only at hnbs
          have hvpF := vorbisPartOf_spec hscan hvb hvp
          have hppF := picturePartOf_spec hscan hpp hpc hppb
          have hfltF := filtered_facts hscan
          rw [← Option.some.inj hnbs]
          constructor
          · intro b hb
            simp only [List.mem_append, List.mem_singleton] at hb
            rcases hb with ((rfl | hb) | hb) | hb
            · exact hsiOK
            · exact (hvpF b hb).1
            · exact (hppF b hb).1
            · exact (hfltF b hb).1
          · refine ⟨(vp.toList ++ pp.toList ++
              GetFilteredBlocks blocks [nSTREAMINFO, nVORBIS, nPICTURE]).map typeCode, ?_, ?_⟩
            · simp [hsiCode]
            · intro t ht
              simp only [List.mem_map, List.mem_append] at ht
              obtain ⟨b, hb, rfl⟩ := ht
              rcases hb with (hb | hb) | hb
              · rw [(hvpF b hb).2]; decide
              · rw [(hppF b hb).2]; decide
              · exact (hfltF b hb).2

lemma blockBytes_eq_of_emitOK {b : MetadataBlock} (h : emitHeaderOK b) :
    [b.BlockHeader.Data.getD 0 0, b.BlockHeader.Data.getD 1 0, b.BlockHeader.Data.getD 2 0,
      b.BlockHeader.Data.getD 3 0] ++ b.BlockData = blockBytes b := by
  obtain ⟨h0, h1, h2, h3, hdata, _⟩ := h
  rw [blockBytes, hdata]
  rfl

lemma length_le_flatten (l : List MetadataBlock) (h : ∀ b ∈ l, emitHeaderOK b) :
    l.length ≤ ((l.map blockBytes).flatten).length := by
  induction l with
  | nil => simp
  | cons b t ih =>
    obtain ⟨h0, h1, h2, h3, hdata, _⟩ := h b (List.mem_cons_self _ _)
    have hlb : (blockBytes b).length = 4 + b.BlockData.length := by
      rw [blockBytes, hdata]
      simp only [List.length_append, List.length_cons, List.length_nil]
    have hle := ih (fun x hx => h x (List.mem_cons_of_mem _ hx))
    simp only [List.map_cons, List.flatten_cons, List.length_append, List.length_cons, hlb]
    omega

/-- **C4.** For every session whose staged blocks respect FLAC's 24-bit block
length bound (spec §3) and whose parsed cover originates from the open scan,
every successful `Save` emits a container whose scan succeeds, returns exactly
the emitted blocks (their bytes are the whole metadata section of the output),
holds exactly one STREAMINFO block — the first — and carries the terminal bit
set on exactly one emitted block, the last, cleared on all others. -/
theorem save_structural_invariants (st : Flac) (order : List (List Nat)) (out : List Nat)
    (hpp : st.pendingCoverPicture = [] ∨ ∃ img mime,
      st.pendingCoverPicture = createPictureBlock img mime ∧
      32 + mime.length + img.length < 16777216)
    (hvb : (createVorbisBlock st order).all (fun vb => decide (vb.length < 16777220)) = true)
    (hpc : st.parsedCoverPicture.all
      (fun pb => decide (getBlock st.file nPICTURE = some (some pb))) = true)
    (hs : Save st order = some out) :
    ∃ obs audio,
      readAllMetadataBlocks out = some obs ∧
      out = st.file.take 4 ++ (obs.map blockBytes).flatten ++ audio ∧
      obs.countP (fun b => b.BlockType == nSTREAMINFO) = 1 ∧
      obs.head?.map (fun b => b.BlockType) = some nSTREAMINFO ∧
      obs.map (fun b => b.IsLastBlock) = List.replicate (obs.length - 1) false ++ [true] := by
  obtain ⟨blocks, magic, nbs, endOff, h1, h2, h3, h4, hout⟩ := Save_eq st order out hs
  obtain ⟨hhdrs, rest, htypes, hrest0⟩ := newBlocksOf_spec st order blocks nbs h1 hpp hvb hpc h3
  have hne : nbs ≠ [] := by
    intro hE
    rw [hE] at htypes
    cases htypes
  obtain ⟨hwf, hmty, hmdata, hmflags, hmhdrs⟩ := markLast_spec nbs hne hhdrs
  have hmagic : magic = st.file.take 4 := by
    unfold readBytes at h2
    split at h2
    · rw [← Option.some.inj h2, List.drop_zero]
    · cases h2
  have hmlen : magic.length = 4 := by
    unfold readBytes at h2
    split at h2
    · next hb4 =>
      rw [← Option.some.inj h2]
      simp only [List.length_take, List.length_drop]
      omega
    · cases h2
  have hmarklen : (markLast nbs).length = nbs.length := by
    have := congrArg List.length hmty
    simpa using this
  have hmarkne : markLast nbs ≠ [] := by
    intro hE
    rw [hE] at hmarklen
    exact hne (List.length_eq_zero.mp hmarklen.symm)
  have hdrop4 : out.drop 4 =
      ((markLast nbs).map blockBytes).flatten ++ st.file.drop endOff := by
    rw [hout, List.append_assoc, ← hmlen, List.drop_left]
  have hflatlen := length_le_flatten (markLast nbs) hmhdrs
  have houtlen : out.length =
      4 + ((((markLast nbs).map blockBytes).flatten).length + (st.file.drop endOff).length) := by
    rw [hout]
    simp only [List.length_append, hmlen]
    omega
  have hfuel : (markLast nbs).length ≤ out.length := by omega
  have hscanOut : readAllMetadataBlocks out = some (rescanFrom 4 (markLast nbs)) :=
    readAllFrom_of_emitted out (markLast nbs) 4 (st.file.drop endOff) out.length
      hmarkne hdrop4 hfuel hwf
  obtain ⟨hrmapLast, hrmapType, hrmapBytes⟩ := rescanFrom_maps (markLast nbs) 4
  have hbytesEq : (rescanFrom 4 (markLast nbs)).map blockBytes =
      (markLast nbs).map blockBytes := by
    rw [hrmapBytes]
    exact List.map_congr_left (fun b hb => blockBytes_eq_of_emitOK (hmhdrs b hb))
  have hnames : (rescanFrom 4 (markLast nbs)).map (fun b => b.BlockType) =
      nSTREAMINFO :: rest.map blockTypeName := by
    rw [hrmapType]
    have hmm : (markLast nbs).map (fun b => blockTypeName (typeCode b)) =
        ((markLast nbs).map typeCode).map blockTypeName := by
      rw [List.map_map]
      rfl
    rw [hmm, hmty, htypes]
    rfl
  have hobslen : (rescanFrom 4 (markLast nbs)).length = nbs.length := by
    have := congrArg List.length hrmapLast
    simpa [hmarklen] using this
  refine ⟨rescanFrom 4 (markLast nbs), st.file.drop endOff, hscanOut, ?_, ?_, ?_, ?_⟩
  · rw [hbytesEq, ← hmagic]
    exact hout
  · have hcmap : (rescanFrom 4 (markLast nbs)).countP (fun b => b.BlockType == nSTREAMINFO) =
        ((rescanFrom 4 (markLast nbs)).map (fun b => b.BlockType)).countP
          (fun nm => nm == nSTREAMINFO) := by
      rw [List.countP_map]
      rfl
    rw [hcmap, hnames, List.countP_cons]
    have hzero : (rest.map blockTypeName).countP (fun nm => nm == nSTREAMINFO) = 0 := by
      rw [List.countP_eq_zero]
      intro nm hnm
      obtain ⟨t, ht, rfl⟩ := List.mem_map.mp hnm
      simp only [beq_iff_eq]
      intro hEq
      exact hrest0 t ht (typeCode_of_name_streaminfo (by rw [hEq]; simp [eqFoldB]))
    rw [hzero]
    decide
  · have hh : ((rescanFrom 4 (markLast nbs)).map (fun b => b.BlockType)).head? =
        some nSTREAMINFO := by
      rw [hnames]
      rfl
    rw [List.head?_map] at hh
    exact hh
  · rw [hrmapLast, hmflags, hobslen]

theorem save_structural_invariants_witness :
    Save sampleSession sampleOrder = some sampleSaved ∧
    (∃ obs audio,
      readAllMetadataBlocks sampleSaved = some obs ∧
      sampleSaved = sampleSession.file.take 4 ++ (obs.map blockBytes).flatten ++ audio ∧
      obs.countP (fun b => b.BlockType == nSTREAMINFO) = 1 ∧
      obs.head?.map (fun b => b.BlockType) = some nSTREAMINFO ∧
      obs.map (fun b => b.IsLastBlock) = List.replicate (obs.length - 1) false ++ [true]) :=
  ⟨by decide,
    save_structural_invariants sampleSession sampleOrder sampleSaved
      (Or.inl (by decide)) (by decide) (by decide) (by decide)⟩

end Flacgo
